import Mathlib

/-!
# Verification of the crowdwisdom-trading cross-platform unification core

Shallow embedding of the record-matching and aggregation core of the
repository (agents/identify_products.py and agents/rearrange_data.py),
together with theorems settling the specification claims.

Modelling conventions:
* Python strings are modelled as `List Char` (ASCII semantics for
  case conversion and the regex character class `\w`).
* Python floats are modelled as exact rationals `ℚ`; Python's `round`
  (banker's rounding, half to even) is modelled exactly on `ℚ`.
* Python dicts (insertion ordered, last-write-wins) are modelled as
  association lists with explicit insert functions.
-/

set_option maxRecDepth 100000

namespace CrowdWisdom

/- The Batteries rational-number operations are `@[irreducible]`, which
blocks kernel evaluation of concrete rationals inside `decide`; restore
the default reducibility for this development. -/
attribute [local semireducible] Rat.mul Rat.add Rat.sub Rat.inv

/-! ## Character-level helpers (Python `str` semantics, ASCII fragment) -/

/-- Python whitespace characters recognised by `str.split` / `str.strip`. -/
def isPySpace (c : Char) : Bool :=
  c = ' ' || c = '\t' || c = '\n' || c = '\r' || c = '\x0b' || c = '\x0c'

/-- A regex `\w` word character (ASCII fragment): alphanumeric or underscore. -/
def isWordChar (c : Char) : Bool := c.isAlphanum || c = '_'

/-- `str.lower` on a single character (ASCII fragment). -/
def lowerChar (c : Char) : Char :=
  if 65 ≤ c.toNat && c.toNat ≤ 90 then Char.ofNat (c.toNat + 32) else c

/-- Characters kept by `re.sub(r'[^\w\s\-\?\!]', ' ', _)` in
`normalize_product_name`: word characters, whitespace, `-`, `?`, `!`. -/
def keepChar (c : Char) : Bool :=
  isWordChar c || isPySpace c || c = '-' || c = '?' || c = '!'

/-- Python `str.strip()`: drop leading and trailing whitespace. -/
def pyStrip (s : List Char) : List Char :=
  ((s.dropWhile isPySpace).reverse.dropWhile isPySpace).reverse

/-- One step of the right fold computing `str.split()`: a whitespace
character opens a new (so far empty) field, any other character is
prepended to the current field. -/
def splitStep (c : Char) (acc : List (List Char)) : List (List Char) :=
  if isPySpace c then [] :: acc
  else
    match acc with
    | [] => [[c]]
    | w :: ws => (c :: w) :: ws

/-- The fields of `s` split at single whitespace characters (empty
fields included). -/
def pySplitRaw (s : List Char) : List (List Char) := s.foldr splitStep [[]]

/-- Python `str.split()` (no separator argument): split on runs of
whitespace, discarding empty fields. -/
def pySplit (s : List Char) : List (List Char) :=
  (pySplitRaw s).filter (fun w => !w.isEmpty)

/-- Python `' '.join(ws)`. -/
def joinSp : List (List Char) → List Char
  | [] => []
  | [w] => w
  | w :: v :: ws => w ++ ' ' :: joinSp (v :: ws)

/-- `' '.join(s.split())`: collapse whitespace runs to single spaces. -/
def collapseWS (s : List Char) : List Char := joinSp (pySplit s)

/-- Whether a whole-word match may begin after character `prev`
(`prev = none` at the start of the string): regex `\b` semantics,
given that every replacement key consists of word characters. -/
def boundaryOk (prev : Option Char) : Bool :=
  match prev with
  | none => true
  | some c => !isWordChar c

/-- Whether a whole-word match may end before the remainder `rest`. -/
def boundaryOkAfter (rest : List Char) : Bool :=
  match rest with
  | [] => true
  | d :: _ => !isWordChar d

/-- One pass of `re.sub(r'\b' + key + r'\b', rep, s)`: scan left to
right, replacing every whole-word occurrence of `key`; scanning resumes
after the replacement text (the replacement is not rescanned), exactly
as `re.sub` does.  `fuel` is an upper bound on the number of scanning
steps; callers pass `s.length + 1`, which suffices because every
recursive call consumes at least one character of `s` (keys are
nonempty). -/
def subWordAux (key rep : List Char) : Nat → Option Char → List Char → List Char
  | 0, _, s => s
  | _ + 1, _, [] => []
  | fuel + 1, prev, c :: s =>
    if key.isPrefixOf (c :: s) && boundaryOk prev &&
        boundaryOkAfter ((c :: s).drop key.length) then
      rep ++ subWordAux key rep fuel key.getLast? ((c :: s).drop key.length)
    else
      c :: subWordAux key rep fuel (some c) s

/-- Whole-word regex substitution `re.sub(r'\bkey\b', rep, s)`. -/
def subWord (key rep s : List Char) : List Char :=
  subWordAux key rep (s.length + 1) none s

/-- The synonym table of `normalize_product_name`, in source (insertion)
order; each pair is applied as a whole-word substitution over the whole
string, sequentially. -/
def replacements : List (List Char × List Char) :=
  [("trump", "donald trump"),
   ("biden", "joe biden"),
   ("harris", "kamala harris"),
   ("democrats", "democratic party"),
   ("republicans", "republican party"),
   ("gop", "republican party"),
   ("dems", "democratic party"),
   ("senate", "us senate"),
   ("house", "us house"),
   ("congress", "us congress"),
   ("presidency", "president"),
   ("presidential", "president"),
   ("2024", "2024 election"),
   ("2025", "2025"),
   ("next", "upcoming"),
   ("win", "victory"),
   ("wins", "victory"),
   ("elected", "victory"),
   ("control", "majority"),
   ("controls", "majority"),
   ("above", "over"),
   ("below", "under"),
   ("reaches", "hits"),
   ("exceeds", "over")].map (fun p => (p.1.data, p.2.data))

/-- The sequential application of the whole synonym table (the `for
old, new in replacements.items()` loop). -/
def applyReplacements (s : List Char) : List Char :=
  replacements.foldl (fun acc kv => subWord kv.1 kv.2 acc) s

/-- `ProductIdentifierFlow.normalize_product_name`: lowercase and strip,
replace characters outside `[\w\s\-\?\!]` by spaces, apply the synonym
table via whole-word substitution, collapse whitespace.  The empty
string is returned unchanged (`if not product_name: return ""`). -/
def normalize_product_name (s : List Char) : List Char :=
  if s = [] then []
  else
    let n1 := s.map lowerChar
    let n2 := pyStrip n1
    let n3 := n2.map (fun c => if keepChar c then c else ' ')
    collapseWS (applyReplacements n3)

/-- The stop-word set of `extract_keywords`. -/
def stop_words : List (List Char) :=
  ["the", "a", "an", "and", "or", "but", "in", "on", "at", "to", "for",
   "of", "with", "by", "will", "be", "is", "are", "was", "were"].map String.data

/-- `ProductIdentifierFlow.extract_keywords`: tokens of the normalized
title of length `> 2` that are not stop words, collected into a set. -/
def extract_keywords (s : List Char) : Finset (List Char) :=
  ((pySplit (normalize_product_name s)).filter
    (fun w => 2 < w.length && !stop_words.contains w)).toFinset

/-- Jaccard similarity of two keyword sets
(`len(intersection) / len(union) if union else 0.0`). -/
def jaccardSim (k1 k2 : Finset (List Char)) : ℚ :=
  if (k1 ∪ k2).card = 0 then 0 else ((k1 ∩ k2).card : ℚ) / ((k1 ∪ k2).card : ℚ)

/-! ## Python `round` on exact rationals -/

/-- Python's `round` to an integer: nearest integer, ties to even. -/
def pyRoundInt (x : ℚ) : ℤ :=
  if x - (⌊x⌋ : ℚ) < 1/2 then ⌊x⌋
  else if 1/2 < x - (⌊x⌋ : ℚ) then ⌊x⌋ + 1
  else if ⌊x⌋ % 2 = 0 then ⌊x⌋ else ⌊x⌋ + 1

/-- Python's `round(x, 3)`. -/
def pyRound3 (x : ℚ) : ℚ := (pyRoundInt (x * 1000) : ℚ) / 1000

/-! ## Model of `difflib.SequenceMatcher(None, a, b).ratio()`

`calculate_similarity_rule_based` calls the standard library's
`SequenceMatcher` with no junk predicate.  With `isjunk = None` the
b-junk set is empty and the documented semantics of
`find_longest_match(alo, ahi, blo, bhi)` is: among all blocks
`a[i:i+k] == b[j:j+k]` (within the window) all of whose characters are
outside the "popular" set, return the one with maximal `k`, then
minimal `i`, then minimal `j`; afterwards greedily extend the block on
both ends over any equal characters.  The popular set is the autojunk
heuristic: when `len(b) >= 200`, characters occurring more than
`len(b) // 100 + 1` times in `b`.  `ratio()` is `2 * M / (len(a) +
len(b))` where `M` sums the sizes of the recursively found blocks, and
is `1.0` when both strings are empty.  We implement exactly that
specification (the dynamic program in difflib computes the same result;
its tie-breaking — earliest end row, then earliest end column, at
maximal size — coincides with earliest start positions). -/

/-- The autojunk "popular" character set of `SequenceMatcher.__chain_b`. -/
def popularChars (b : List Char) : List Char :=
  if 200 ≤ b.length then
    b.dedup.filter (fun c => b.length / 100 + 1 < b.count c)
  else []

/-- Length of the common prefix of two suffixes, stopping at the first
mismatch or at a popular (autojunk) character. -/
def commonRun (pop : List Char) : List Char → List Char → Nat
  | x :: xs, y :: ys =>
    if x = y && !pop.contains y then commonRun pop xs ys + 1 else 0
  | _, _ => 0

/-- The popular-free matching-run length starting at `(i, j)` inside the
window `[alo, ahi) × [blo, bhi)`. -/
def runAt (a b pop : List Char) (ahi bhi i j : Nat) : Nat :=
  commonRun pop ((a.drop i).take (ahi - i)) ((b.drop j).take (bhi - j))

/-- One candidate test of the block search: replace the best block by
the run starting at `(i, j)` when it is strictly longer. -/
def bbStep (a b pop : List Char) (ahi bhi i : Nat)
    (best : Nat × Nat × Nat) (j : Nat) : Nat × Nat × Nat :=
  if best.2.2 < runAt a b pop ahi bhi i j then (i, j, runAt a b pop ahi bhi i j) else best

/-- One row of the block search: all start columns `j` of row `i`, in
increasing order. -/
def bbRow (a b pop : List Char) (ahi bhi blo : Nat)
    (best : Nat × Nat × Nat) (i : Nat) : Nat × Nat × Nat :=
  (List.range' blo (bhi - blo)).foldl (bbStep a b pop ahi bhi i) best

/-- The maximal popular-free matching block in the window: maximal size,
then earliest start in `a`, then earliest start in `b`.  Returns
`(alo, blo, 0)` when there is none, as difflib does. -/
def bestBlock (a b pop : List Char) (alo ahi blo bhi : Nat) : Nat × Nat × Nat :=
  (List.range' alo (ahi - alo)).foldl (bbRow a b pop ahi bhi blo) (alo, blo, 0)

/-- Do positions `i` of `a` and `j` of `b` hold equal characters? -/
def matchAt (a b : List Char) (i j : Nat) : Bool :=
  match a[i]?, b[j]? with
  | some x, some y => x = y
  | _, _ => false

/-- The left extension loop of `find_longest_match` (the b-junk set is
empty, so the extension runs over any equal characters). -/
def extendL (a b : List Char) (alo blo : Nat) : Nat → Nat × Nat × Nat → Nat × Nat × Nat
  | 0, r => r
  | fuel + 1, (i, j, k) =>
    if decide (alo < i) && decide (blo < j) && matchAt a b (i - 1) (j - 1) then
      extendL a b alo blo fuel (i - 1, j - 1, k + 1)
    else (i, j, k)

/-- The right extension loop of `find_longest_match`. -/
def extendR (a b : List Char) (ahi bhi : Nat) : Nat → Nat × Nat × Nat → Nat × Nat × Nat
  | 0, r => r
  | fuel + 1, (i, j, k) =>
    if decide (i + k < ahi) && decide (j + k < bhi) && matchAt a b (i + k) (j + k) then
      extendR a b ahi bhi fuel (i, j, k + 1)
    else (i, j, k)

/-- `SequenceMatcher.find_longest_match` on the window
`[alo, ahi) × [blo, bhi)` (no junk; autojunk popular set `pop`). -/
def find_longest_match (a b pop : List Char) (alo ahi blo bhi : Nat) : Nat × Nat × Nat :=
  extendR a b ahi bhi (ahi + bhi + 1)
    (extendL a b alo blo (ahi + bhi + 1) (bestBlock a b pop alo ahi blo bhi))

/-- Total size of the matching blocks found by the recursive
decomposition of `get_matching_blocks` restricted to a window.  `fuel`
dominates the recursion depth; every level strictly shrinks the window,
so `a.length + b.length + 1` always suffices. -/
def matchTotal (a b pop : List Char) : Nat → Nat → Nat → Nat → Nat → Nat
  | 0, _, _, _, _ => 0
  | fuel + 1, alo, ahi, blo, bhi =>
    let r := find_longest_match a b pop alo ahi blo bhi
    if r.2.2 = 0 then 0
    else
      matchTotal a b pop fuel alo r.1 blo r.2.1 + r.2.2 +
        matchTotal a b pop fuel (r.1 + r.2.2) ahi (r.2.1 + r.2.2) bhi

/-- Total matched characters of `SequenceMatcher(None, a, b)`. -/
def seqMatches (a b : List Char) : Nat :=
  matchTotal a b (popularChars b) (a.length + b.length + 1) 0 a.length 0 b.length

/-- `SequenceMatcher(None, a, b).ratio()` as an exact rational:
`2 * M / T`, and `1.0` when `T = 0`. -/
def sequence_similarity (a b : List Char) : ℚ :=
  if a.length + b.length = 0 then 1
  else 2 * (seqMatches a b : ℚ) / ((a.length + b.length : Nat) : ℚ)

/-! ## Similarity scorers -/

/-- A similarity verdict (`SimilarityVerdict` of the spec).  The
`reasoning` field of the source is a purely presentational formatted
string and is not modelled. -/
structure Verdict where
  same_event : Bool
  confidence : ℚ
  unified_name : List Char
deriving DecidableEq, Repr

/-- The combined lexical score
`jaccard_similarity * 0.7 + sequence_similarity * 0.3` of
`calculate_similarity_rule_based`. -/
def combinedScore (product1 product2 : List Char) : ℚ :=
  jaccardSim (extract_keywords product1) (extract_keywords product2) * (7/10) +
    sequence_similarity (product1.map lowerChar) (product2.map lowerChar) * (3/10)

/-- `ProductIdentifierFlow.calculate_similarity_rule_based`:
`same_event := combined > 0.65`, `confidence := round(combined, 3)`,
`unified_name :=` the shorter input (ties to the first). -/
def calculate_similarity_rule_based (product1 product2 : List Char) : Verdict :=
  let combined_similarity := combinedScore product1 product2
  { same_event := decide ((13 : ℚ)/20 < combined_similarity)
    confidence := pyRound3 combined_similarity
    unified_name := if product1.length ≤ product2.length then product1 else product2 }

/-- Outcome of the external model call inside
`calculate_similarity_llm`: the credential is missing, the call raised
(network error, timeout, parse exception, ...), or it returned a
response text. -/
inductive LLMOutcome where
  | noKey : LLMOutcome
  | exn : List Char → LLMOutcome
  | response : List Char → LLMOutcome

/-- `ProductIdentifierFlow.calculate_similarity_llm`.  The external
request and the JSON extraction (`re.search(r'\{.*\}', ...)` followed
by `json.loads`) are abstracted as the `outcome` of the call and the
`parseJson` function; `parseJson r = none` covers both a response with
no JSON object and one whose object fails to load (the latter raises
and is caught by the enclosing handler, which also falls back). -/
def calculate_similarity_llm (parseJson : List Char → Option Verdict)
    (outcome : LLMOutcome) (product1 product2 : List Char) : Verdict :=
  match outcome with
  | .noKey => calculate_similarity_rule_based product1 product2
  | .exn _ => calculate_similarity_rule_based product1 product2
  | .response r =>
    match parseJson r with
    | some v => v
    | none => calculate_similarity_rule_based product1 product2

/-! ## Data model -/

/-- A JSON scalar as it appears in the `price` / `volume` fields of the
raw data: a number, a string, or `null`. -/
inductive PVal where
  | num : ℚ → PVal
  | str : List Char → PVal
  | null : PVal
deriving DecidableEq, Repr

/-- One raw listing record, after the required keys have been read. -/
structure Listing where
  site : List Char
  product : List Char
  price : PVal
  volume : PVal
  category : List Char
  market_id : List Char
  description : List Char
deriving DecidableEq, Repr

/-- The per-platform payload `match_products` stores under each site. -/
structure Payload where
  original_product : List Char
  price : PVal
  volume : PVal
  category : List Char
  market_id : List Char
  description : List Char
deriving DecidableEq, Repr

/-- The payload built from a listing at group finalization. -/
def payloadOf (x : Listing) : Payload :=
  { original_product := x.product, price := x.price, volume := x.volume,
    category := x.category, market_id := x.market_id, description := x.description }

/-- A unified product group (sans the unmodeled `match_reasoning`
presentation string). -/
structure UnifiedEntry where
  confidence : ℚ
  product_count : Nat
  platforms : List (List Char × List Payload)
deriving DecidableEq, Repr

/-- Python dict `d.setdefault(k, []).append(v)`: append to the bucket of
an existing key (keeping its position), else add a new key at the end. -/
def dictAppendPayload (k : List Char) (v : Payload) :
    List (List Char × List Payload) → List (List Char × List Payload)
  | [] => [(k, [v])]
  | (k0, l0) :: rest =>
    if k0 = k then (k0, l0 ++ [v]) :: rest
    else (k0, l0) :: dictAppendPayload k v rest

/-- Python dict assignment `d[k] = v`: replace in place, else append. -/
def dictInsert {β : Type} (k : List Char) (v : β) :
    List (List Char × β) → List (List Char × β)
  | [] => [(k, v)]
  | (k0, v0) :: rest =>
    if k0 = k then (k0, v) :: rest
    else (k0, v0) :: dictInsert k v rest

/-! ## The unification engine (`match_products`) -/

/-- The acceptance test of the clustering loop:
`similarity_result['same_event'] and similarity_result['confidence'] > 0.65`. -/
def acceptsVerdict (v : Verdict) : Bool :=
  v.same_event && decide ((13 : ℚ)/20 < v.confidence)

/-- The Engine's merge decision on a pair, as a function of the pair's
combined lexical score: the lexical verdict carries
`same_event := combined > 0.65` and `confidence := round(combined, 3)`,
and the clustering loop accepts when `same_event` holds and the
confidence exceeds `0.65`. -/
def mergeDecisionAtScore (combined : ℚ) : Bool :=
  decide ((13 : ℚ)/20 < combined) && decide ((13 : ℚ)/20 < pyRound3 combined)

/-- The `platforms` mapping of a finalized group: every member's payload
appended under its site key, in member order. -/
def buildPlatforms (members : List Listing) : List (List Char × List Payload) :=
  members.foldl (fun d x => dictAppendPayload x.site (payloadOf x) d) []

/-- Finalize one group: the seed listing plus its accepted matches.  The
group name is the last accepted verdict's `unified_name` (the seed's
title when nothing matched), the confidence is
`round(min(1.0, confidences...), 3)`. -/
def finalizeGroup (sc : List Char → List Char → Verdict)
    (seed : Listing) (matched : List Listing) : List Char × UnifiedEntry :=
  (matched.foldl (fun _ x => (sc seed.product x.product).unified_name) seed.product,
   { confidence := pyRound3 (matched.foldl
       (fun c x => min c (sc seed.product x.product).confidence) 1)
     product_count := (seed :: matched).length
     platforms := buildPlatforms (seed :: matched) })

/-- The greedy clustering pass of `match_products`, emitting groups in
seed order.  The source iterates indices with a shared `processed`
set; taking the first unconsumed listing as seed and partitioning the
remainder by the acceptance test is the same computation, because
within one seed's scan every later unconsumed listing is compared
against the seed exactly once, in order. -/
def matchGroupsAux (sc : List Char → List Char → Verdict) :
    Nat → List Listing → List (List Char × UnifiedEntry)
  | 0, _ => []
  | _ + 1, [] => []
  | fuel + 1, e :: rest =>
    finalizeGroup sc e (rest.filter (fun x => acceptsVerdict (sc e.product x.product))) ::
      matchGroupsAux sc fuel (rest.filter (fun x => !acceptsVerdict (sc e.product x.product)))

/-- The clustering pass at fuel `l.length`, which always suffices: a
nonempty list takes the successor branch, and each recursive call
strictly shrinks the list (the filtered remainder is at most one
shorter than the input). -/
def matchGroups (sc : List Char → List Char → Verdict)
    (l : List Listing) : List (List Char × UnifiedEntry) :=
  matchGroupsAux sc l.length l

/-- The seed/matched decomposition underlying the clustering pass: the
same greedy recursion, recording for each group its seed listing and
the listings its scan accepted, in order. -/
def seedsAndMatchesAux (sc : List Char → List Char → Verdict) :
    Nat → List Listing → List (Listing × List Listing)
  | 0, _ => []
  | _ + 1, [] => []
  | fuel + 1, e :: rest =>
    (e, rest.filter (fun x => acceptsVerdict (sc e.product x.product))) ::
      seedsAndMatchesAux sc fuel
        (rest.filter (fun x => !acceptsVerdict (sc e.product x.product)))

/-- The seed/matched decomposition of a whole batch. -/
def seedsAndMatches (sc : List Char → List Char → Verdict)
    (l : List Listing) : List (Listing × List Listing) :=
  seedsAndMatchesAux sc l.length l

/-- Total number of per-platform payloads in one `platforms` mapping. -/
def platTotal (d : List (List Char × List Payload)) : Nat :=
  (d.map (fun pl => pl.2.length)).sum

/-- Total number of per-platform payloads across a result mapping — the
quantity the partition property says equals the input batch size. -/
def payloadTotal (m : List (List Char × UnifiedEntry)) : Nat :=
  (m.map (fun g => platTotal g.2.platforms)).sum

/-- All payloads of a `platforms` mapping, flattened. -/
def flatPayloads (d : List (List Char × List Payload)) : List Payload :=
  (d.map Prod.snd).flatten

/-- All payloads of a whole result mapping, flattened. -/
def allPayloads (m : List (List Char × UnifiedEntry)) : List Payload :=
  (m.map (fun g => flatPayloads g.2.platforms)).flatten

/-- A concrete batch whose two listings carry the same keyword-free
title: they do not merge, and both singleton groups get the same
canonical name. -/
def sampleCollidingBatch : List Listing :=
  [{ site := "Polymarket".data, product := "a b".data, price := PVal.num (1/2),
     volume := PVal.num 0, category := "General".data, market_id := [],
     description := [] },
   { site := "Kalshi".data, product := "a b".data, price := PVal.num (2/5),
     volume := PVal.num 0, category := "General".data, market_id := [],
     description := [] }]

/-- A concrete batch whose two listings do not merge and finalize to
distinct canonical names. -/
def sampleDistinctBatch : List Listing :=
  [{ site := "Polymarket".data, product := "aa1".data,
     price := PVal.num (1/2), volume := PVal.num 10, category := "Crypto".data,
     market_id := [], description := [] },
   { site := "Kalshi".data, product := "bb2".data,
     price := PVal.num (2/5), volume := PVal.num 5, category := "Politics".data,
     market_id := [], description := [] }]

/-- A payload with a well-formed numeric price, used in the aggregation
examples. -/
def samplePayloadGood : Payload :=
  { original_product := "bitcoin over 100k".data, price := PVal.num (6/10),
    volume := PVal.num 100, category := "Crypto".data, market_id := [],
    description := [] }

/-- A payload whose price is the string `"N/A"`. -/
def samplePayloadNA : Payload :=
  { original_product := "bitcoin over 100k".data, price := PVal.str "N/A".data,
    volume := PVal.num 50, category := "Crypto".data, market_id := [],
    description := [] }

/-- A payload with price `0.0`. -/
def samplePayloadZero : Payload :=
  { original_product := "bitcoin over 100k".data, price := PVal.num 0,
    volume := PVal.num 50, category := "Crypto".data, market_id := [],
    description := [] }

/-- `ProductIdentifierFlow.match_products`, parametrized by the scorer
(the source calls `calculate_similarity_llm`, which is the lexical
scorer when no credential is configured).  The result dict maps each
group's final unified name to its entry; on a name collision the later
group overwrites the earlier (Python dict assignment). -/
def match_products (sc : List Char → List Char → Verdict)
    (raw_data : List Listing) : List (List Char × UnifiedEntry) :=
  if raw_data.isEmpty then []
  else (matchGroups sc raw_data).foldl (fun m g => dictInsert g.1 g.2 m) []

/-! ## Raw (dict-shaped) input for the error-handling claims -/

/-- A raw input record as a partial dict: `entry['product']`,
`entry['site']` and `entry['price']` are bracket accesses in the source
(raising `KeyError` when absent), the rest use `.get` with defaults. -/
structure RawEntry where
  site : Option (List Char)
  product : Option (List Char)
  price : Option PVal
  volume : Option PVal
  category : Option (List Char)
  market_id : Option (List Char)
  description : Option (List Char)
deriving DecidableEq, Repr

/-- Reading the required keys of a raw entry; `KeyError` on a missing
required key, defaults for the optional ones. -/
def listingOfRaw (e : RawEntry) : Except (List Char) Listing :=
  match e.product, e.site, e.price with
  | none, _, _ => .error "KeyError: product".data
  | _, none, _ => .error "KeyError: site".data
  | _, _, none => .error "KeyError: price".data
  | some p, some s, some pr =>
    .ok { site := s, product := p, price := pr,
          volume := e.volume.getD (.num 0),
          category := (e.category.getD "General".data),
          market_id := (e.market_id.getD []),
          description := (e.description.getD []) }

/-- `match_products` on raw dict-shaped input.  The empty (falsy) batch
is answered with the empty dict before any key is read; in a nonempty
batch every entry's `product`, `site` and `price` keys are eventually
bracket-accessed (the title at group creation or comparison, the rest
at finalization), so a missing required key raises `KeyError`, which the
function does not catch — modelled by `Except`. -/
def match_products_checked (sc : List Char → List Char → Verdict)
    (raw : List RawEntry) : Except (List Char) (List (List Char × UnifiedEntry)) :=
  if raw.isEmpty then .ok []
  else (raw.mapM listingOfRaw).map (match_products sc)

/-- A raw entry missing the required `product` key. -/
def sampleMalformedEntry : RawEntry :=
  { site := some "Polymarket".data, product := none,
    price := some (PVal.num (1/2)), volume := none, category := none,
    market_id := none, description := none }

/-- A nonempty raw batch containing a malformed entry. -/
def sampleMalformedBatch : List RawEntry := [sampleMalformedEntry]

/-! ## Aggregation layer (`rearrange_data.calculate_advanced_metrics`) -/

/-- Digits of a decimal string as a natural number. -/
def digitsToNat (ds : List Char) : Nat :=
  ds.foldl (fun n c => n * 10 + (c.toNat - 48)) 0

/-- Nonempty and all decimal digits. -/
def allDigits (ds : List Char) : Bool :=
  !ds.isEmpty && ds.all (fun c => 48 ≤ c.toNat && c.toNat ≤ 57)

/-- Unsigned decimal literal (`"12"`, `"12.5"`, `"12."`, `".5"`). -/
def parseUnsigned (s : List Char) : Option ℚ :=
  let ip := s.takeWhile (fun c => c ≠ '.')
  match s.dropWhile (fun c => c ≠ '.') with
  | [] => if allDigits s then some (digitsToNat s : ℚ) else none
  | _ :: fp =>
    if fp.contains '.' then none
    else if (allDigits ip || ip.isEmpty) && (allDigits fp || fp.isEmpty) &&
        !(ip.isEmpty && fp.isEmpty) then
      some ((digitsToNat ip : ℚ) + (digitsToNat fp : ℚ) / 10 ^ fp.length)
    else none

/-- Python `float(s)` for a string, on the decimal fragment the data
uses (whitespace-stripped sign and decimal literal; exponents, `inf`
and `nan` are outside the repository's data and not modelled).
`float("N/A")` is `none` (a `ValueError`). -/
def parsePyNum (s : List Char) : Option ℚ :=
  match pyStrip s with
  | '-' :: rest => (parseUnsigned rest).map Neg.neg
  | '+' :: rest => parseUnsigned rest
  | t => parseUnsigned t

/-- Python `float(v)` on a JSON scalar: numbers coerce, strings parse or
raise `ValueError`, `null` raises `TypeError`. -/
def tryFloat : PVal → Option ℚ
  | .num q => some q
  | .str s => parsePyNum s
  | .null => none

/-- `price = float(data.get('price', 0))` guarded by
`except (ValueError, TypeError): price = 0.0` — the coerced value, with
invalid input collapsing to `0.0`. -/
def coerceNum (v : PVal) : ℚ := (tryFloat v).getD 0

structure PriceStats where
  min_price : ℚ
  max_price : ℚ
  avg_price : ℚ
  price_spread : ℚ
  price_variance : ℚ
deriving DecidableEq, Repr

structure VolumeStats where
  total_volume : ℚ
  avg_volume : ℚ
  max_volume : ℚ
deriving DecidableEq, Repr

structure BestOpp where
  highest_probability_platform : List Char
  highest_probability_price : ℚ
  arbitrage_opportunity : Bool
deriving DecidableEq, Repr

structure Metrics where
  price_stats : Option PriceStats
  volume_stats : Option VolumeStats
  best_opportunities : Option BestOpp
  platforms_count : Nat
  platforms_list : List (List Char)
deriving DecidableEq, Repr

/-- The `prices` list accumulated by the extraction loop: for each
platform with a nonempty payload list, the coerced price of the first
payload, kept only when strictly positive. -/
def groupPrices (platforms_data : List (List Char × List Payload)) : List ℚ :=
  platforms_data.filterMap (fun e =>
    e.2.head?.bind (fun d =>
      let p := coerceNum d.price
      if 0 < p then some p else none))

/-- The `volumes` list: first-payload coerced volumes, kept only when
strictly positive. -/
def groupVolumes (platforms_data : List (List Char × List Payload)) : List ℚ :=
  platforms_data.filterMap (fun e =>
    e.2.head?.bind (fun d =>
      let v := coerceNum d.volume
      if 0 < v then some v else none))

/-- The `platform_prices` dict: `platform_prices[platform] = price` for
each strictly positive coerced first-payload price, in platform order. -/
def platform_prices (platforms_data : List (List Char × List Payload)) :
    List (List Char × ℚ) :=
  (platforms_data.filterMap (fun e =>
    e.2.head?.bind (fun d =>
      let p := coerceNum d.price
      if 0 < p then some (e.1, p) else none))).foldl
    (fun d kv => dictInsert kv.1 kv.2 d) []

/-- `min(l)` for the nonempty lists the source applies it to. -/
def listMin : List ℚ → ℚ
  | [] => 0
  | x :: xs => xs.foldl min x

/-- `max(l)` for the nonempty lists the source applies it to. -/
def listMax : List ℚ → ℚ
  | [] => 0
  | x :: xs => xs.foldl max x

/-- `max(platform_prices, key=platform_prices.get)`: the first key of
maximal value in iteration order. -/
def bestPlatform (pp : List (List Char × ℚ)) : Option (List Char × ℚ) :=
  pp.foldl (fun acc kv =>
    match acc with
    | none => some kv
    | some best => if best.2 < kv.2 then some kv else acc) none

/-- `DataArrangerFlow.calculate_advanced_metrics`.  The `price_stats`,
`volume_stats` and `best_opportunities` sub-dicts stay empty (`none`)
when their guarding lists are empty, exactly as in the source. -/
def calculate_advanced_metrics
    (platforms_data : List (List Char × List Payload)) : Metrics :=
  let prices := groupPrices platforms_data
  let volumes := groupVolumes platforms_data
  let mean := prices.sum / (prices.length : ℚ)
  { price_stats :=
      if prices.isEmpty then none
      else some
        { min_price := listMin prices
          max_price := listMax prices
          avg_price := mean
          price_spread := if 1 < prices.length then listMax prices - listMin prices else 0
          price_variance := (prices.map (fun p => (p - mean) ^ 2)).sum / (prices.length : ℚ) }
    best_opportunities :=
      if prices.isEmpty then none
      else
        match bestPlatform (platform_prices platforms_data) with
        | none => none
        | some best => some
            { highest_probability_platform := best.1
              highest_probability_price := best.2
              arbitrage_opportunity :=
                decide ((5 : ℚ)/100 < listMax prices - listMin prices) }
    volume_stats :=
      if volumes.isEmpty then none
      else some
        { total_volume := volumes.sum
          avg_volume := volumes.sum / (volumes.length : ℚ)
          max_volume := listMax volumes }
    platforms_count := platforms_data.length
    platforms_list := platforms_data.map Prod.fst }

/-- The per-entry price contribution of the aggregation loop. -/
def priceContrib (e : List Char × List Payload) : Option ℚ :=
  e.2.head?.bind (fun d =>
    if 0 < coerceNum d.price then some (coerceNum d.price) else none)

/-- The per-entry volume contribution of the aggregation loop. -/
def volumeContrib (e : List Char × List Payload) : Option ℚ :=
  e.2.head?.bind (fun d =>
    if 0 < coerceNum d.volume then some (coerceNum d.volume) else none)

/-- The per-entry platform/price pair contribution. -/
def platPriceContrib (e : List Char × List Payload) : Option (List Char × ℚ) :=
  e.2.head?.bind (fun d =>
    if 0 < coerceNum d.price then some (e.1, coerceNum d.price) else none)

/-- A character that survives `normalize_product_name` unchanged:
kept by the punctuation filter and already lowercase. -/
def goodChar (c : Char) : Prop := keepChar c = true ∧ lowerChar c = c

instance (c : Char) : Decidable (goodChar c) := by
  unfold goodChar; infer_instance

/-- A well-formed token list as produced by `str.split()`: every token
is nonempty and free of whitespace characters. -/
def goodToks (ws : List (List Char)) : Prop :=
  ∀ w ∈ ws, w ≠ [] ∧ ∀ c ∈ w, isPySpace c = false

/-! ## Rounding lemmas -/

lemma pyRoundInt_bounds (x : ℚ) :
    x - 1/2 ≤ (pyRoundInt x : ℚ) ∧ (pyRoundInt x : ℚ) ≤ x + 1/2 := by
  have h1 : ((⌊x⌋ : ℤ) : ℚ) ≤ x := Int.floor_le x
  have h2 : x < (⌊x⌋ : ℤ) + 1 := Int.lt_floor_add_one x
  unfold pyRoundInt
  split_ifs <;> constructor <;> push_cast <;> linarith

lemma pyRoundInt_intCast (n : ℤ) : pyRoundInt (n : ℚ) = n := by
  unfold pyRoundInt
  rw [Int.floor_intCast]
  simp

/-- `pyRound3` yields a value of the form `r / 1000`, hence is a fixed
point of itself. -/
lemma pyRound3_idem (x : ℚ) : pyRound3 (pyRound3 x) = pyRound3 x := by
  unfold pyRound3
  rw [div_mul_cancel₀ _ (by norm_num : (1000 : ℚ) ≠ 0), pyRoundInt_intCast]

/-- The engine's confidence gate `round(c, 3) > 0.65` holds exactly when
the raw combined score exceeds `0.6505` (`0.6505` itself rounds to
`0.650` by the half-to-even rule). -/
lemma pyRound3_gt_65_iff (c : ℚ) :
    (13 : ℚ)/20 < pyRound3 c ↔ 6505/10000 < c := by
  have hb := pyRoundInt_bounds (c * 1000)
  unfold pyRound3
  constructor
  · intro h
    have h650 : (650 : ℤ) < pyRoundInt (c * 1000) := by
      have : (650 : ℚ) < (pyRoundInt (c * 1000) : ℚ) := by
        rw [div_lt_div_iff₀ (by norm_num) (by norm_num)] at h
        linarith
      exact_mod_cast this
    have h651 : ((651 : ℤ) : ℚ) ≤ (pyRoundInt (c * 1000) : ℚ) := by
      exact_mod_cast h650
    have hge : 6505/10000 ≤ c := by
      push_cast at h651
      linarith [hb.2]
    rcases lt_or_eq_of_le hge with h' | h'
    · exact h'
    · exfalso
      have : pyRoundInt (c * 1000) = 650 := by
        rw [← h']
        decide
      omega
  · intro h
    have : (650 : ℚ) < (pyRoundInt (c * 1000) : ℚ) := by linarith [hb.1]
    have h650 : (650 : ℤ) < pyRoundInt (c * 1000) := by exact_mod_cast this
    have h651 : ((651 : ℤ) : ℚ) ≤ (pyRoundInt (c * 1000) : ℚ) := by exact_mod_cast h650
    rw [div_lt_div_iff₀ (by norm_num) (by norm_num)]
    push_cast at h651 ⊢
    linarith

/-- The engine's acceptance test on a lexical verdict coincides with the
merge decision as a function of the combined score. -/
lemma acceptsVerdict_rule_based (product1 product2 : List Char) :
    acceptsVerdict (calculate_similarity_rule_based product1 product2) =
      mergeDecisionAtScore (combinedScore product1 product2) := rfl

/-! ## Claim theorems -/

/-- C2 (counterexample): the claim asserts that a pair whose combined
lexical score is exactly `0.6500001` is merged by the Engine.  It is
not: the gate compares the 3-decimal-rounded confidence, and
`round(0.6500001, 3) = 0.65` fails the strict test. -/
theorem claim_C2_counterexample :
    mergeDecisionAtScore (6500001/10000000) = false := by decide

/-- C2 (amended): a pair with combined score exactly `0.65` is indeed
not merged, but the merge decision is `round(combined, 3) > 0.65`
together with `same_event`, which holds exactly when the combined score
exceeds `0.6505`; in particular `0.6500001` does not merge.  The titles
`"alpha bravo"` and `"alpha bravo zzzzzzzzzzzzz"` realize the exact
boundary score `0.65` and are not merged. -/
theorem claim_C2_amended :
    (∀ product1 product2 : List Char,
      acceptsVerdict (calculate_similarity_rule_based product1 product2) = true ↔
        6505/10000 < combinedScore product1 product2) ∧
    combinedScore "alpha bravo".data "alpha bravo zzzzzzzzzzzzz".data = 13/20 ∧
    acceptsVerdict (calculate_similarity_rule_based "alpha bravo".data
      "alpha bravo zzzzzzzzzzzzz".data) = false := by
  refine ⟨fun product1 product2 => ?_, by decide, by decide⟩
  rw [acceptsVerdict_rule_based]
  unfold mergeDecisionAtScore
  rw [Bool.and_eq_true, decide_eq_true_eq, decide_eq_true_eq, pyRound3_gt_65_iff]
  constructor
  · exact fun h => h.2
  · exact fun h => ⟨lt_trans (by norm_num) h, h⟩

/-- C6: whenever the semantic scorer call fails — missing credential,
raised exception (network error, timeout, JSON decode error), or a
response in which no JSON object can be extracted — the call returns
exactly the lexical verdict for the pair; being a total function, it
never raises to the Engine. -/
theorem claim_C6 (parseJson : List Char → Option Verdict) (outcome : LLMOutcome)
    (product1 product2 : List Char)
    (h : outcome = .noKey ∨ (∃ m, outcome = .exn m) ∨
      ∃ r, outcome = .response r ∧ parseJson r = none) :
    calculate_similarity_llm parseJson outcome product1 product2 =
      calculate_similarity_rule_based product1 product2 := by
  rcases h with h | ⟨m, h⟩ | ⟨r, h, hp⟩ <;> subst h <;>
    simp [calculate_similarity_llm]
  rw [hp]

/-- C6 witness: a concrete failing outcome (a response with no JSON
object) falls back to the lexical verdict. -/
theorem claim_C6_witness :
    calculate_similarity_llm (fun _ => none) (.response "Sorry, I cannot help.".data)
      "alpha".data "bravo".data =
      calculate_similarity_rule_based "alpha".data "bravo".data :=
  claim_C6 (fun _ => none) (.response "Sorry, I cannot help.".data)
    "alpha".data "bravo".data (Or.inr (Or.inr ⟨_, rfl, rfl⟩))

/-- C9: with the lexical-only scorer the engine is deterministic — the
output is a pure function of the input sequence and the scorer's
extension, so two runs with (any two implementations of) the same
scorer on the same sequence produce identical result mappings. -/
theorem claim_C9 (sc1 sc2 : List Char → List Char → Verdict) (l : List Listing)
    (h : ∀ p q, sc1 p q = sc2 p q) :
    match_products sc1 l = match_products sc2 l := by
  have hsc : sc1 = sc2 := funext fun p => funext fun q => h p q
  rw [hsc]

/-- C9 witness: two runs of the lexical-only engine on a concrete batch
agree. -/
theorem claim_C9_witness :
    match_products calculate_similarity_rule_based
      [{ site := "Polymarket".data, product := "alpha bravo candle".data,
         price := .num (1/2), volume := .num 100, category := "General".data,
         market_id := [], description := [] },
       { site := "Kalshi".data, product := "alpha bravo candle".data,
         price := .num (3/5), volume := .num 50, category := "General".data,
         market_id := [], description := [] }] =
    match_products calculate_similarity_rule_based
      [{ site := "Polymarket".data, product := "alpha bravo candle".data,
         price := .num (1/2), volume := .num 100, category := "General".data,
         market_id := [], description := [] },
       { site := "Kalshi".data, product := "alpha bravo candle".data,
         price := .num (3/5), volume := .num 50, category := "General".data,
         market_id := [], description := [] }] :=
  claim_C9 calculate_similarity_rule_based calculate_similarity_rule_based _
    (fun _ _ => rfl)

/-! ## Self-similarity of the sequence matcher

On two copies of the same string the best block found by the search is
always on the diagonal (an off-diagonal match forces an at least as
long diagonal match in an earlier row or column), and the extension
loops — which ignore the popular set, since the b-junk set is empty —
then stretch it to the whole string.  Hence `ratio(t, t) = 1` for every
`t`, including strings long enough for the autojunk heuristic. -/

lemma commonRun_le_length (pop : List Char) :
    ∀ xs ys : List Char, commonRun pop xs ys ≤ xs.length := by
  intro xs
  induction xs with
  | nil => intro ys; cases ys <;> simp [commonRun]
  | cons x xs ih =>
    intro ys
    cases ys with
    | nil => simp [commonRun]
    | cons y ys =>
      simp only [commonRun, List.length_cons]
      split
      · exact Nat.succ_le_succ (ih ys)
      · omega

lemma commonRun_le_diag_right (pop : List Char) :
    ∀ xs ys : List Char, commonRun pop xs ys ≤ commonRun pop ys ys := by
  intro xs
  induction xs with
  | nil => intro ys; cases ys <;> simp [commonRun]
  | cons x xs ih =>
    intro ys
    cases ys with
    | nil => simp [commonRun]
    | cons y ys =>
      simp only [commonRun]
      split
      · rename_i h
        rw [if_pos]
        · exact Nat.succ_le_succ (ih ys)
        · simp only [Bool.and_eq_true, decide_eq_true_eq] at h ⊢
          exact ⟨trivial, h.2⟩
      · omega

lemma commonRun_le_diag_left (pop : List Char) :
    ∀ xs ys : List Char, commonRun pop xs ys ≤ commonRun pop xs xs := by
  intro xs
  induction xs with
  | nil => intro ys; simp [commonRun]
  | cons x xs ih =>
    intro ys
    cases ys with
    | nil => simp [commonRun]
    | cons y ys =>
      simp only [commonRun]
      split
      · rename_i h
        simp only [Bool.and_eq_true, decide_eq_true_eq] at h
        rw [if_pos]
        · exact Nat.succ_le_succ (ih ys)
        · simp only [Bool.and_eq_true, decide_eq_true_eq]
          exact ⟨trivial, h.1 ▸ h.2⟩
      · omega

lemma runAt_le_window (a b pop : List Char) (ahi bhi i j : Nat) :
    runAt a b pop ahi bhi i j ≤ ahi - i := by
  unfold runAt
  calc commonRun pop ((a.drop i).take (ahi - i)) ((b.drop j).take (bhi - j)) ≤
      ((a.drop i).take (ahi - i)).length := commonRun_le_length _ _ _
    _ ≤ ahi - i := by simp [List.length_take]

lemma runAt_le_diag_right (a pop : List Char) (n i j : Nat) :
    runAt a a pop n n i j ≤ runAt a a pop n n j j := commonRun_le_diag_right _ _ _

lemma runAt_le_diag_left (a pop : List Char) (n i j : Nat) :
    runAt a a pop n n i j ≤ runAt a a pop n n i i := commonRun_le_diag_left _ _ _

lemma foldl_bbStep_const (a b pop : List Char) (ahi bhi i : Nat)
    (best : Nat × Nat × Nat) (L : List Nat)
    (h : ∀ j ∈ L, runAt a b pop ahi bhi i j ≤ best.2.2) :
    L.foldl (bbStep a b pop ahi bhi i) best = best := by
  induction L with
  | nil => rfl
  | cons j L ih =>
    have hj := h j (by simp)
    have hstep : bbStep a b pop ahi bhi i best j = best := by
      unfold bbStep
      rw [if_neg (by omega)]
    rw [List.foldl_cons, hstep]
    exact ih fun j' hj' => h j' (List.mem_cons_of_mem _ hj')

lemma bbRow_self (a pop : List Char) (n i : Nat) (hin : i < n)
    (best : Nat × Nat × Nat) (hd : best.1 = best.2.1) (hb : best.1 + best.2.2 ≤ n)
    (hr : ∀ r, r < i → runAt a a pop n n r r ≤ best.2.2) :
    (bbRow a a pop n n 0 best i).1 = (bbRow a a pop n n 0 best i).2.1 ∧
    (bbRow a a pop n n 0 best i).1 + (bbRow a a pop n n 0 best i).2.2 ≤ n ∧
    (∀ r, r < i + 1 → runAt a a pop n n r r ≤ (bbRow a a pop n n 0 best i).2.2) := by
  unfold bbRow
  obtain ⟨m, hm⟩ : ∃ m, n - (i + 1) = m := ⟨n - (i + 1), rfl⟩
  have hsplit : List.range' 0 n = List.range' 0 i ++ i :: List.range' (i + 1) m := by
    rw [← List.range'_succ i m 1]
    have happ := List.range'_append 0 i (m + 1) 1
    simp only [Nat.one_mul, Nat.zero_add] at happ
    rw [happ, show m + 1 + i = n by omega]
  rw [Nat.sub_zero, hsplit, List.foldl_append]
  rw [foldl_bbStep_const a a pop n n i best (List.range' 0 i) (fun j hj => by
    have hji : j < i := by
      rcases List.mem_range'.1 hj with ⟨v, hv, rfl⟩
      omega
    exact le_trans (runAt_le_diag_right a pop n i j) (hr j hji))]
  rw [List.foldl_cons]
  set b1 := bbStep a a pop n n i best i with hb1
  have hKii : runAt a a pop n n i i ≤ b1.2.2 ∧ b1.1 = b1.2.1 ∧ b1.1 + b1.2.2 ≤ n ∧
      best.2.2 ≤ b1.2.2 := by
    unfold bbStep at hb1
    split at hb1
    · rename_i hlt
      refine ⟨by rw [hb1], by rw [hb1], ?_, ?_⟩
      · rw [hb1]
        show i + runAt a a pop n n i i ≤ n
        have := runAt_le_window a a pop n n i i
        omega
      · rw [hb1]
        show best.2.2 ≤ runAt a a pop n n i i
        omega
    · rename_i hlt
      exact ⟨by rw [hb1]; omega, by rw [hb1]; exact hd, by rw [hb1]; exact hb,
        by rw [hb1]⟩
  obtain ⟨h1, h2, h3, h4⟩ := hKii
  rw [foldl_bbStep_const a a pop n n i b1 (List.range' (i + 1) m) (fun j hj =>
    le_trans (runAt_le_diag_left a pop n i j) h1)]
  refine ⟨h2, h3, fun r hr' => ?_⟩
  rcases Nat.lt_succ_iff_lt_or_eq.1 hr' with h | rfl
  · exact le_trans (hr r h) h4
  · exact h1

lemma bbOuter_self (a pop : List Char) (n : Nat) :
    ∀ (m s : Nat) (best : Nat × Nat × Nat), s + m ≤ n →
    best.1 = best.2.1 → best.1 + best.2.2 ≤ n →
    (∀ r, r < s → runAt a a pop n n r r ≤ best.2.2) →
    ((List.range' s m).foldl (bbRow a a pop n n 0) best).1 =
      ((List.range' s m).foldl (bbRow a a pop n n 0) best).2.1 ∧
    ((List.range' s m).foldl (bbRow a a pop n n 0) best).1 +
      ((List.range' s m).foldl (bbRow a a pop n n 0) best).2.2 ≤ n := by
  intro m
  induction m with
  | zero => intro s best _ hd hb _; simpa using ⟨hd, hb⟩
  | succ m ih =>
    intro s best hsm hd hb hr
    rw [List.range'_succ s m 1, List.foldl_cons]
    obtain ⟨h1, h2, h3⟩ := bbRow_self a pop n s (by omega) best hd hb hr
    exact ih (s + 1) _ (by omega) h1 h2 h3

lemma bestBlock_self_diag (a pop : List Char) (n : Nat) :
    ∃ i k, bestBlock a a pop 0 n 0 n = (i, i, k) ∧ i + k ≤ n := by
  unfold bestBlock
  rw [Nat.sub_zero]
  obtain ⟨hd, hb⟩ := bbOuter_self a pop n n 0 (0, 0, 0) (by omega) rfl (by simp)
    (fun r hr => by omega)
  refine ⟨_, _, ?_, hb⟩
  set b2 := (List.range' 0 n).foldl (bbRow a a pop n n 0) (0, 0, 0)
  show b2 = (b2.1, b2.1, b2.2.2)
  rw [show (b2.1, b2.1, b2.2.2) = (b2.1, b2.2.1, b2.2.2) by rw [hd]]

lemma matchAt_self (a : List Char) (i : Nat) (h : i < a.length) :
    matchAt a a i i = true := by
  simp [matchAt, List.getElem?_eq_getElem h]

lemma extendL_self (a : List Char) :
    ∀ (i k fuel : Nat), i ≤ fuel → i ≤ a.length →
    extendL a a 0 0 fuel (i, i, k) = (0, 0, k + i) := by
  intro i
  induction i with
  | zero =>
    intro k fuel _ _
    cases fuel with
    | zero => rfl
    | succ f => simp [extendL]
  | succ i ih =>
    intro k fuel hfuel hlen
    obtain ⟨f, rfl⟩ : ∃ f, fuel = f + 1 := ⟨fuel - 1, by omega⟩
    show extendL a a 0 0 (f + 1) (i + 1, i + 1, k) = _
    rw [show extendL a a 0 0 (f + 1) (i + 1, i + 1, k) =
        if decide (0 < i + 1) && decide (0 < i + 1) && matchAt a a (i + 1 - 1) (i + 1 - 1)
        then extendL a a 0 0 f (i + 1 - 1, i + 1 - 1, k + 1) else (i + 1, i + 1, k) from rfl]
    rw [if_pos]
    · simpa [show i + 1 - 1 = i from rfl, Nat.add_right_comm] using
        ih (k + 1) f (by omega) (by omega)
    · simp only [Bool.and_eq_true, decide_eq_true_eq]
      exact ⟨⟨Nat.succ_pos i, Nat.succ_pos i⟩, matchAt_self a i (by omega)⟩

lemma extendR_self (a : List Char) :
    ∀ (fuel k : Nat), k ≤ a.length → a.length - k ≤ fuel →
    extendR a a a.length a.length fuel (0, 0, k) = (0, 0, a.length) := by
  intro fuel
  induction fuel with
  | zero => intro k hk hf; rw [show k = a.length by omega]; rfl
  | succ f ih =>
    intro k hk hf
    show extendR a a a.length a.length (f + 1) (0, 0, k) = _
    rcases Nat.lt_or_ge k a.length with h | h
    · rw [show extendR a a a.length a.length (f + 1) (0, 0, k) =
          if decide (0 + k < a.length) && decide (0 + k < a.length) &&
            matchAt a a (0 + k) (0 + k)
          then extendR a a a.length a.length f (0, 0, k + 1) else (0, 0, k) from rfl]
      rw [if_pos]
      · exact ih (k + 1) (by omega) (by omega)
      · simp only [Bool.and_eq_true, decide_eq_true_eq, Nat.zero_add]
        exact ⟨⟨h, h⟩, matchAt_self a k h⟩
    · rw [show k = a.length by omega]
      rw [show extendR a a a.length a.length (f + 1) (0, 0, a.length) =
          if decide (0 + a.length < a.length) && decide (0 + a.length < a.length) &&
            matchAt a a (0 + a.length) (0 + a.length)
          then extendR a a a.length a.length f (0, 0, a.length + 1) else (0, 0, a.length)
          from rfl]
      rw [if_neg]
      simp

lemma find_longest_match_self (a pop : List Char) :
    find_longest_match a a pop 0 a.length 0 a.length = (0, 0, a.length) := by
  obtain ⟨i, k, hbb, hik⟩ := bestBlock_self_diag a pop a.length
  unfold find_longest_match
  rw [hbb, extendL_self a i k _ (by omega) (by omega)]
  exact extendR_self a _ (k + i) (by omega) (by omega)

lemma matchTotal_degenerate (a b pop : List Char) (fuel x y : Nat) :
    matchTotal a b pop fuel x x y y = 0 := by
  cases fuel with
  | zero => rfl
  | succ f =>
    have hflm : find_longest_match a b pop x x y y = (x, y, 0) := by
      unfold find_longest_match bestBlock
      rw [Nat.sub_self]
      show extendR a b x y (x + y + 1) (extendL a b x y (x + y + 1) (x, y, 0)) = _
      rw [show extendL a b x y (x + y + 1) (x, y, 0) =
          if decide (x < x) && decide (y < y) && matchAt a b (x - 1) (y - 1)
          then extendL a b x y (x + y) (x - 1, y - 1, 0 + 1) else (x, y, 0) from rfl]
      rw [if_neg (by simp)]
      rw [show extendR a b x y (x + y + 1) (x, y, 0) =
          if decide (x + 0 < x) && decide (y + 0 < y) && matchAt a b (x + 0) (y + 0)
          then extendR a b x y (x + y) (x, y, 0 + 1) else (x, y, 0) from rfl]
      rw [if_neg (by simp)]
    show (if (find_longest_match a b pop x x y y).2.2 = 0 then 0 else _) = 0
    rw [hflm]
    simp

lemma seqMatches_self (a : List Char) : seqMatches a a = a.length := by
  unfold seqMatches
  show matchTotal a a (popularChars a) (a.length + a.length + 1) 0 a.length 0 a.length =
    a.length
  rw [show a.length + a.length + 1 = (a.length + a.length) + 1 from rfl]
  show (if (find_longest_match a a (popularChars a) 0 a.length 0 a.length).2.2 = 0 then 0
    else matchTotal a a (popularChars a) (a.length + a.length) 0
        (find_longest_match a a (popularChars a) 0 a.length 0 a.length).1 0
        (find_longest_match a a (popularChars a) 0 a.length 0 a.length).2.1 +
      (find_longest_match a a (popularChars a) 0 a.length 0 a.length).2.2 +
      matchTotal a a (popularChars a) (a.length + a.length)
        ((find_longest_match a a (popularChars a) 0 a.length 0 a.length).1 +
          (find_longest_match a a (popularChars a) 0 a.length 0 a.length).2.2) a.length
        ((find_longest_match a a (popularChars a) 0 a.length 0 a.length).2.1 +
          (find_longest_match a a (popularChars a) 0 a.length 0 a.length).2.2) a.length) =
    a.length
  rw [find_longest_match_self a (popularChars a)]
  cases h : a.length with
  | zero => simp
  | succ m =>
    rw [if_neg (by simp)]
    simp only [Nat.zero_add]
    rw [matchTotal_degenerate, matchTotal_degenerate]
    omega

lemma sequence_similarity_self (a : List Char) : sequence_similarity a a = 1 := by
  unfold sequence_similarity
  rcases Nat.eq_zero_or_pos a.length with h | h
  · simp [h]
  · simp only [seqMatches_self]
    rw [if_neg (by omega)]
    have hne : ((a.length : ℚ) + a.length) ≠ 0 := by
      have : (0 : ℚ) < (a.length : ℚ) := by exact_mod_cast h
      linarith
    push_cast
    rw [div_eq_one_iff_eq hne]
    ring

lemma jaccardSim_self (k : Finset (List Char)) (h : k.card ≠ 0) :
    jaccardSim k k = 1 := by
  unfold jaccardSim
  rw [Finset.union_self, Finset.inter_self, if_neg h]
  exact div_self (Nat.cast_ne_zero.2 h)

/-! ## Bounds of the scorer: both similarity terms lie in `[0, 1]` -/

lemma foldl_invariant {α β : Type} (f : β → α → β) (P : β → Prop) :
    ∀ (l : List α) (b : β), P b → (∀ b' a, P b' → a ∈ l → P (f b' a)) →
      P (l.foldl f b) := by
  intro l
  induction l with
  | nil => intro b hb _; exact hb
  | cons a l ih =>
    intro b hb hf
    rw [List.foldl_cons]
    exact ih (f b a) (hf b a hb (by simp))
      (fun b' a' hb' ha' => hf b' a' hb' (List.mem_cons_of_mem _ ha'))

lemma commonRun_le_length_right (pop : List Char) :
    ∀ xs ys : List Char, commonRun pop xs ys ≤ ys.length := by
  intro xs
  induction xs with
  | nil => intro ys; cases ys <;> simp [commonRun]
  | cons x xs ih =>
    intro ys
    cases ys with
    | nil => simp [commonRun]
    | cons y ys =>
      simp only [commonRun, List.length_cons]
      split
      · exact Nat.succ_le_succ (ih ys)
      · omega

lemma runAt_le_window_right (a b pop : List Char) (ahi bhi i j : Nat) :
    runAt a b pop ahi bhi i j ≤ bhi - j := by
  unfold runAt
  calc commonRun pop ((a.drop i).take (ahi - i)) ((b.drop j).take (bhi - j)) ≤
      ((b.drop j).take (bhi - j)).length := commonRun_le_length_right _ _ _
    _ ≤ bhi - j := by simp [List.length_take]

lemma extendL_succ (a b : List Char) (alo blo f i j k : Nat) :
    extendL a b alo blo (f + 1) (i, j, k) =
      if decide (alo < i) && decide (blo < j) && matchAt a b (i - 1) (j - 1)
      then extendL a b alo blo f (i - 1, j - 1, k + 1) else (i, j, k) := rfl

lemma extendR_succ (a b : List Char) (ahi bhi f i j k : Nat) :
    extendR a b ahi bhi (f + 1) (i, j, k) =
      if decide (i + k < ahi) && decide (j + k < bhi) && matchAt a b (i + k) (j + k)
      then extendR a b ahi bhi f (i, j, k + 1) else (i, j, k) := rfl

/-- The block search returns either the degenerate initial block
`(alo, blo, 0)` or a nonempty block lying entirely inside the window. -/
lemma bestBlock_inWindow (a b pop : List Char) (alo ahi blo bhi : Nat) :
    bestBlock a b pop alo ahi blo bhi = (alo, blo, 0) ∨
      (alo ≤ (bestBlock a b pop alo ahi blo bhi).1 ∧
        blo ≤ (bestBlock a b pop alo ahi blo bhi).2.1 ∧
        1 ≤ (bestBlock a b pop alo ahi blo bhi).2.2 ∧
        (bestBlock a b pop alo ahi blo bhi).1 + (bestBlock a b pop alo ahi blo bhi).2.2 ≤ ahi ∧
        (bestBlock a b pop alo ahi blo bhi).2.1 +
          (bestBlock a b pop alo ahi blo bhi).2.2 ≤ bhi) := by
  unfold bestBlock
  apply foldl_invariant (bbRow a b pop ahi bhi blo)
    (fun r => r = (alo, blo, 0) ∨
      (alo ≤ r.1 ∧ blo ≤ r.2.1 ∧ 1 ≤ r.2.2 ∧ r.1 + r.2.2 ≤ ahi ∧ r.2.1 + r.2.2 ≤ bhi))
  · exact Or.inl rfl
  · intro best i hbest hi
    have hi2 : alo ≤ i ∧ i < ahi := by
      rcases List.mem_range'.1 hi with ⟨v, hv, rfl⟩
      omega
    unfold bbRow
    apply foldl_invariant (bbStep a b pop ahi bhi i)
      (fun r => r = (alo, blo, 0) ∨
        (alo ≤ r.1 ∧ blo ≤ r.2.1 ∧ 1 ≤ r.2.2 ∧ r.1 + r.2.2 ≤ ahi ∧ r.2.1 + r.2.2 ≤ bhi))
    · exact hbest
    · intro best' j hbest' hj
      have hj2 : blo ≤ j ∧ j < bhi := by
        rcases List.mem_range'.1 hj with ⟨v, hv, rfl⟩
        omega
      unfold bbStep
      split
      · rename_i hlt
        have h1 := runAt_le_window a b pop ahi bhi i j
        have h2 := runAt_le_window_right a b pop ahi bhi i j
        refine Or.inr ⟨hi2.1, hj2.1, ?_, ?_, ?_⟩
        · show 1 ≤ runAt a b pop ahi bhi i j
          omega
        · show i + runAt a b pop ahi bhi i j ≤ ahi
          omega
        · show j + runAt a b pop ahi bhi i j ≤ bhi
          omega
      · exact hbest'

lemma extendL_bounds (a b : List Char) (alo blo ahi bhi : Nat) :
    ∀ (fuel : Nat) (r : Nat × Nat × Nat), alo ≤ r.1 → blo ≤ r.2.1 → 1 ≤ r.2.2 →
      r.1 + r.2.2 ≤ ahi → r.2.1 + r.2.2 ≤ bhi →
    alo ≤ (extendL a b alo blo fuel r).1 ∧
    blo ≤ (extendL a b alo blo fuel r).2.1 ∧
    1 ≤ (extendL a b alo blo fuel r).2.2 ∧
    (extendL a b alo blo fuel r).1 + (extendL a b alo blo fuel r).2.2 ≤ ahi ∧
    (extendL a b alo blo fuel r).2.1 + (extendL a b alo blo fuel r).2.2 ≤ bhi := by
  intro fuel
  induction fuel with
  | zero =>
    intro r h1 h2 h3 h4 h5
    exact ⟨h1, h2, h3, h4, h5⟩
  | succ f ih =>
    intro r h1 h2 h3 h4 h5
    obtain ⟨i, j, k⟩ := r
    dsimp only at h1 h2 h3 h4 h5
    rw [extendL_succ]
    split
    · rename_i hcond
      simp only [Bool.and_eq_true, decide_eq_true_eq] at hcond
      exact ih (i - 1, j - 1, k + 1) (show alo ≤ i - 1 by omega)
        (show blo ≤ j - 1 by omega) (show 1 ≤ k + 1 by omega)
        (show i - 1 + (k + 1) ≤ ahi by omega) (show j - 1 + (k + 1) ≤ bhi by omega)
    · exact ⟨h1, h2, h3, h4, h5⟩

lemma extendL_base (a b : List Char) (alo blo : Nat) (fuel k : Nat) :
    extendL a b alo blo fuel (alo, blo, k) = (alo, blo, k) := by
  cases fuel with
  | zero => rfl
  | succ f => rw [extendL_succ, if_neg (by simp)]

lemma extendR_bounds (a b : List Char) (ahi bhi : Nat) :
    ∀ (fuel : Nat) (r : Nat × Nat × Nat),
      (r.2.2 = 0 ∨ (r.1 + r.2.2 ≤ ahi ∧ r.2.1 + r.2.2 ≤ bhi)) →
    (extendR a b ahi bhi fuel r).1 = r.1 ∧
    (extendR a b ahi bhi fuel r).2.1 = r.2.1 ∧
    ((extendR a b ahi bhi fuel r).2.2 = 0 ∨
      ((extendR a b ahi bhi fuel r).1 + (extendR a b ahi bhi fuel r).2.2 ≤ ahi ∧
       (extendR a b ahi bhi fuel r).2.1 + (extendR a b ahi bhi fuel r).2.2 ≤ bhi)) := by
  intro fuel
  induction fuel with
  | zero => intro r h; exact ⟨rfl, rfl, h⟩
  | succ f ih =>
    intro r h
    obtain ⟨i, j, k⟩ := r
    dsimp only at h
    rw [extendR_succ]
    split
    · rename_i hcond
      simp only [Bool.and_eq_true, decide_eq_true_eq] at hcond
      obtain ⟨e1, e2, e3⟩ := ih (i, j, k + 1)
        (Or.inr ⟨show i + (k + 1) ≤ ahi by omega, show j + (k + 1) ≤ bhi by omega⟩)
      exact ⟨e1, e2, e3⟩
    · exact ⟨rfl, rfl, h⟩

/-- The block returned by `find_longest_match` starts at or after the
window base in both sequences and, when nonempty, ends inside the
window. -/
lemma find_longest_match_inWindow (a b pop : List Char) (alo ahi blo bhi : Nat) :
    alo ≤ (find_longest_match a b pop alo ahi blo bhi).1 ∧
    blo ≤ (find_longest_match a b pop alo ahi blo bhi).2.1 ∧
    ((find_longest_match a b pop alo ahi blo bhi).2.2 = 0 ∨
      ((find_longest_match a b pop alo ahi blo bhi).1 +
          (find_longest_match a b pop alo ahi blo bhi).2.2 ≤ ahi ∧
        (find_longest_match a b pop alo ahi blo bhi).2.1 +
          (find_longest_match a b pop alo ahi blo bhi).2.2 ≤ bhi)) := by
  have hbb := bestBlock_inWindow a b pop alo ahi blo bhi
  unfold find_longest_match
  rcases hbb with hbb | ⟨h1, h2, h3, h4, h5⟩
  · rw [hbb, extendL_base]
    obtain ⟨e1, e2, e3⟩ := extendR_bounds a b ahi bhi (ahi + bhi + 1) (alo, blo, 0)
      (Or.inl rfl)
    dsimp only at e1 e2
    exact ⟨by omega, by omega, e3⟩
  · obtain ⟨g1, g2, g3, g4, g5⟩ := extendL_bounds a b alo blo ahi bhi
      (ahi + bhi + 1) (bestBlock a b pop alo ahi blo bhi) h1 h2 h3 h4 h5
    obtain ⟨e1, e2, e3⟩ := extendR_bounds a b ahi bhi (ahi + bhi + 1)
      (extendL a b alo blo (ahi + bhi + 1) (bestBlock a b pop alo ahi blo bhi))
      (Or.inr ⟨g4, g5⟩)
    exact ⟨by omega, by omega, e3⟩



lemma matchTotal_succ (a b pop : List Char) (f alo ahi blo bhi : Nat) :
    matchTotal a b pop (f + 1) alo ahi blo bhi =
      if (find_longest_match a b pop alo ahi blo bhi).2.2 = 0 then 0
      else
        matchTotal a b pop f alo (find_longest_match a b pop alo ahi blo bhi).1 blo
            (find_longest_match a b pop alo ahi blo bhi).2.1 +
          (find_longest_match a b pop alo ahi blo bhi).2.2 +
          matchTotal a b pop f
            ((find_longest_match a b pop alo ahi blo bhi).1 +
              (find_longest_match a b pop alo ahi blo bhi).2.2) ahi
            ((find_longest_match a b pop alo ahi blo bhi).2.1 +
              (find_longest_match a b pop alo ahi blo bhi).2.2) bhi := rfl

lemma matchTotal_le (a b pop : List Char) :
    ∀ (fuel alo ahi blo bhi : Nat),
      matchTotal a b pop fuel alo ahi blo bhi ≤ ahi - alo ∧
      matchTotal a b pop fuel alo ahi blo bhi ≤ bhi - blo := by
  intro fuel
  induction fuel with
  | zero =>
    intro alo ahi blo bhi
    exact ⟨Nat.zero_le _, Nat.zero_le _⟩
  | succ f ih =>
    intro alo ahi blo bhi
    obtain ⟨w1, w2, w3⟩ := find_longest_match_inWindow a b pop alo ahi blo bhi
    rw [matchTotal_succ]
    split
    · exact ⟨Nat.zero_le _, Nat.zero_le _⟩
    · rename_i hk
      rcases w3 with w3 | ⟨w3, w4⟩
      · omega
      · have l1 := ih alo (find_longest_match a b pop alo ahi blo bhi).1 blo
          (find_longest_match a b pop alo ahi blo bhi).2.1
        have l2 := ih ((find_longest_match a b pop alo ahi blo bhi).1 +
            (find_longest_match a b pop alo ahi blo bhi).2.2) ahi
          ((find_longest_match a b pop alo ahi blo bhi).2.1 +
            (find_longest_match a b pop alo ahi blo bhi).2.2) bhi
        omega

lemma seqMatches_le (a b : List Char) :
    seqMatches a b ≤ a.length ∧ seqMatches a b ≤ b.length := by
  have h := matchTotal_le a b (popularChars b) (a.length + b.length + 1)
    0 a.length 0 b.length
  simpa using h

lemma sequence_similarity_le_one (a b : List Char) : sequence_similarity a b ≤ 1 := by
  unfold sequence_similarity
  split
  · exact le_refl 1
  · rename_i hT
    rw [div_le_one (by positivity)]
    have h := seqMatches_le a b
    push_cast
    have h1 : (seqMatches a b : ℚ) ≤ a.length := by exact_mod_cast h.1
    have h2 : (seqMatches a b : ℚ) ≤ b.length := by exact_mod_cast h.2
    linarith

lemma sequence_similarity_nonneg (a b : List Char) : 0 ≤ sequence_similarity a b := by
  unfold sequence_similarity
  split
  · norm_num
  · positivity

lemma jaccardSim_le_one (k1 k2 : Finset (List Char)) : jaccardSim k1 k2 ≤ 1 := by
  unfold jaccardSim
  split
  · norm_num
  · rename_i h
    rw [div_le_one (by positivity)]
    exact_mod_cast Finset.card_le_card Finset.inter_subset_union

lemma jaccardSim_nonneg (k1 k2 : Finset (List Char)) : 0 ≤ jaccardSim k1 k2 := by
  unfold jaccardSim
  split
  · exact le_refl 0
  · positivity

lemma combinedScore_le_one (p q : List Char) : combinedScore p q ≤ 1 := by
  unfold combinedScore
  have h1 := jaccardSim_le_one (extract_keywords p) (extract_keywords q)
  have h2 := sequence_similarity_le_one (p.map lowerChar) (q.map lowerChar)
  have h3 := jaccardSim_nonneg (extract_keywords p) (extract_keywords q)
  have h4 := sequence_similarity_nonneg (p.map lowerChar) (q.map lowerChar)
  nlinarith

lemma pyRound3_le_one (c : ℚ) (h : c ≤ 1) : pyRound3 c ≤ 1 := by
  have hb := pyRoundInt_bounds (c * 1000)
  have hle : (pyRoundInt (c * 1000) : ℚ) ≤ 2001/2 := by linarith [hb.2]
  have : pyRoundInt (c * 1000) ≤ 1000 := by
    by_contra hgt
    push_neg at hgt
    have : ((1001 : ℤ) : ℚ) ≤ (pyRoundInt (c * 1000) : ℚ) := by exact_mod_cast hgt
    push_cast at this
    linarith
  unfold pyRound3
  rw [div_le_one (by norm_num)]
  exact_mod_cast this

lemma rule_based_confidence_le_one (p q : List Char) :
    (calculate_similarity_rule_based p q).confidence ≤ 1 :=
  pyRound3_le_one _ (combinedScore_le_one p q)

/-- C4 (counterexample): the claim asserts `score(t, t)` always yields
`same_event = true` and `confidence = 1.0`; but a title whose keyword
set is empty (every token is a stop word or of length at most 2) has
Jaccard term `0.0`, so `score(t, t)` has combined score `0.3`:
`same_event` is false and the confidence is `0.3`. -/
theorem claim_C4_counterexample :
    (calculate_similarity_rule_based "a b".data "a b".data).same_event = false ∧
    (calculate_similarity_rule_based "a b".data "a b".data).confidence = 3/10 := by
  constructor
  · decide
  · decide

/-- C4 (amended): for every title whose extracted keyword set is
nonempty, the lexical scorer on the pair `(t, t)` yields
`same_event = true` and `confidence = 1.0`. -/
theorem claim_C4_amended (t : List Char) (h : (extract_keywords t).card ≠ 0) :
    (calculate_similarity_rule_based t t).same_event = true ∧
    (calculate_similarity_rule_based t t).confidence = 1 := by
  have hcomb : combinedScore t t = 1 := by
    unfold combinedScore
    rw [jaccardSim_self _ h, sequence_similarity_self]
    norm_num
  unfold calculate_similarity_rule_based
  rw [hcomb]
  constructor
  · simp only [decide_eq_true_eq]
    norm_num
  · show pyRound3 1 = 1
    decide

/-- C4 witness: a concrete title with a nonempty keyword set whose
self-comparison is a same-event verdict with confidence `1.0`. -/
theorem claim_C4_witness :
    (calculate_similarity_rule_based "bitcoin over 100k".data
      "bitcoin over 100k".data).same_event = true ∧
    (calculate_similarity_rule_based "bitcoin over 100k".data
      "bitcoin over 100k".data).confidence = 1 :=
  claim_C4_amended "bitcoin over 100k".data (by decide)

/-! ## Group confidence -/

lemma foldl_min_mem (x : ℚ) : ∀ xs : List ℚ, xs.foldl min x ∈ x :: xs := by
  intro xs
  induction xs generalizing x with
  | nil => simp
  | cons y ys ih =>
    rw [List.foldl_cons]
    rcases List.mem_cons.1 (ih (min x y)) with h | h
    · rcases min_choice x y with hm | hm
      · rw [h, hm]
        exact List.mem_cons_self _ _
      · rw [h, hm]
        exact List.mem_cons.2 (Or.inr (List.mem_cons_self _ _))
    · exact List.mem_cons.2 (Or.inr (List.mem_cons.2 (Or.inr h)))

lemma listMin_mem (cs : List ℚ) (h : cs ≠ []) : listMin cs ∈ cs := by
  cases cs with
  | nil => exact absurd rfl h
  | cons x xs => exact foldl_min_mem x xs

lemma foldl_min_one_eq (c : ℚ) (cs : List ℚ) (hc : c ≤ 1) :
    (c :: cs).foldl min 1 = listMin (c :: cs) := by
  show cs.foldl min (min 1 c) = cs.foldl min c
  rw [min_eq_right hc]

lemma rule_based_confidence_def (p q : List Char) :
    (calculate_similarity_rule_based p q).confidence = pyRound3 (combinedScore p q) := rfl

lemma matchGroupsAux_eq_seeds (sc : List Char → List Char → Verdict) :
    ∀ (fuel : Nat) (l : List Listing),
      matchGroupsAux sc fuel l =
        (seedsAndMatchesAux sc fuel l).map (fun p => finalizeGroup sc p.1 p.2) := by
  intro fuel
  induction fuel with
  | zero => intro l; rfl
  | succ f ih =>
    intro l
    cases l with
    | nil => rfl
    | cons e rest =>
      show finalizeGroup sc e _ :: matchGroupsAux sc f _ = _
      rw [ih]
      rfl

/-- C5: group confidence.  (1) Every output group of the clustering
pass is the finalization of its seed and accepted matches, as recorded
by the seed/matched decomposition.  (2) Under the lexical scorer a
finalized group's confidence is exactly `1.0` for a singleton (no
accepted match) and otherwise the minimum of the pairwise
(seed, member) confidences — the rounding at finalization is the
identity there because each stored pairwise confidence is already a
3-decimal value at most 1.  (3) During one group's formation, the
running confidence (a fold of `min` starting at `1.0`) never increases
as members are added, for any scorer. -/
theorem claim_C5 :
    (∀ (sc : List Char → List Char → Verdict) (l : List Listing),
      matchGroups sc l =
        (seedsAndMatches sc l).map (fun p => finalizeGroup sc p.1 p.2)) ∧
    (∀ (seed : Listing) (matched : List Listing),
      (finalizeGroup calculate_similarity_rule_based seed matched).2.confidence =
        if matched.isEmpty then 1
        else listMin (matched.map
          (fun x => (calculate_similarity_rule_based seed.product x.product).confidence))) ∧
    (∀ (sc : List Char → List Char → Verdict) (seed : Listing)
        (ms : List Listing) (x : Listing),
      (ms ++ [x]).foldl (fun c y => min c (sc seed.product y.product).confidence) 1 ≤
        ms.foldl (fun c y => min c (sc seed.product y.product).confidence) 1) := by
  refine ⟨fun sc l => matchGroupsAux_eq_seeds sc l.length l, ?_, ?_⟩
  · intro seed matched
    cases matched with
    | nil =>
      show pyRound3 1 = 1
      decide
    | cons m ms =>
      show pyRound3 ((m :: ms).foldl
        (fun c x => min c (calculate_similarity_rule_based seed.product x.product).confidence)
        1) = listMin ((m :: ms).map
        (fun x => (calculate_similarity_rule_based seed.product x.product).confidence))
      rw [← List.foldl_map
        (fun x : Listing =>
          (calculate_similarity_rule_based seed.product x.product).confidence) min]
      rw [List.map_cons, foldl_min_one_eq _ _ (rule_based_confidence_le_one _ _)]
      have hmem := listMin_mem
        ((calculate_similarity_rule_based seed.product m.product).confidence ::
          ms.map (fun x =>
            (calculate_similarity_rule_based seed.product x.product).confidence))
        (by simp)
      rcases List.mem_cons.1 hmem with heq | hmem2
      · rw [heq, rule_based_confidence_def, pyRound3_idem]
      · obtain ⟨x, _, heq⟩ := List.mem_map.1 hmem2
        rw [← heq, rule_based_confidence_def, pyRound3_idem]
  · intro sc seed ms x
    rw [List.foldl_append, List.foldl_cons, List.foldl_nil]
    exact min_le_left _ _

/-! ## The partition property -/

lemma platTotal_dictAppend (k : List Char) (v : Payload) :
    ∀ d, platTotal (dictAppendPayload k v d) = platTotal d + 1 := by
  intro d
  induction d with
  | nil => rfl
  | cons e rest ih =>
    obtain ⟨k0, l0⟩ := e
    show platTotal (if k0 = k then (k0, l0 ++ [v]) :: rest
      else (k0, l0) :: dictAppendPayload k v rest) = _
    split
    · simp [platTotal]
      omega
    · show l0.length + platTotal (dictAppendPayload k v rest) = l0.length + platTotal rest + 1
      rw [ih]
      omega

lemma platTotal_foldl (ms : List Listing) :
    ∀ d, platTotal (ms.foldl (fun d x => dictAppendPayload x.site (payloadOf x) d) d) =
      platTotal d + ms.length := by
  induction ms with
  | nil => intro d; rfl
  | cons x ms ih =>
    intro d
    rw [List.foldl_cons, ih, platTotal_dictAppend]
    simp only [List.length_cons]
    omega

lemma platTotal_buildPlatforms (ms : List Listing) :
    platTotal (buildPlatforms ms) = ms.length := by
  unfold buildPlatforms
  rw [platTotal_foldl]
  show 0 + ms.length = ms.length
  omega

lemma finalizeGroup_platforms (sc : List Char → List Char → Verdict)
    (seed : Listing) (matched : List Listing) :
    (finalizeGroup sc seed matched).2.platforms = buildPlatforms (seed :: matched) := rfl

lemma matchGroupsAux_payloadTotal (sc : List Char → List Char → Verdict) :
    ∀ (fuel : Nat) (l : List Listing), l.length ≤ fuel →
      payloadTotal (matchGroupsAux sc fuel l) = l.length := by
  intro fuel
  induction fuel with
  | zero =>
    intro l hl
    rw [show l = [] from List.eq_nil_of_length_eq_zero (by omega)]
    rfl
  | succ f ih =>
    intro l hl
    cases l with
    | nil => rfl
    | cons e rest =>
      show platTotal (finalizeGroup sc e
          (rest.filter (fun x => acceptsVerdict (sc e.product x.product)))).2.platforms +
        payloadTotal (matchGroupsAux sc f
          (rest.filter (fun x => !acceptsVerdict (sc e.product x.product)))) = rest.length + 1
      rw [finalizeGroup_platforms, platTotal_buildPlatforms]
      rw [ih _ (le_trans (List.length_filter_le _ _) (by simpa using hl))]
      have hsplit := List.length_eq_length_filter_add (l := rest)
        (fun x => acceptsVerdict (sc e.product x.product))
      simp only [List.length_cons]
      omega

lemma flatPayloads_dictAppend (k : List Char) (v : Payload) :
    ∀ d, (flatPayloads (dictAppendPayload k v d)).Perm (v :: flatPayloads d) := by
  intro d
  induction d with
  | nil => simp [flatPayloads, dictAppendPayload]
  | cons e rest ih =>
    obtain ⟨k0, l0⟩ := e
    show (flatPayloads (if k0 = k then (k0, l0 ++ [v]) :: rest
      else (k0, l0) :: dictAppendPayload k v rest)).Perm _
    split
    · show ((l0 ++ [v]) ++ flatPayloads rest).Perm (v :: (l0 ++ flatPayloads rest))
      rw [List.append_assoc]
      exact List.perm_middle
    · show (l0 ++ flatPayloads (dictAppendPayload k v rest)).Perm
        (v :: (l0 ++ flatPayloads rest))
      exact (List.Perm.append_left l0 ih).trans List.perm_middle

lemma flatPayloads_foldl (ms : List Listing) :
    ∀ d, (flatPayloads (ms.foldl
      (fun d x => dictAppendPayload x.site (payloadOf x) d) d)).Perm
        (ms.map payloadOf ++ flatPayloads d) := by
  induction ms with
  | nil => intro d; simp
  | cons x ms ih =>
    intro d
    rw [List.foldl_cons]
    simp only [List.map_cons, List.cons_append]
    have h1 := ih (dictAppendPayload x.site (payloadOf x) d)
    have h2 := flatPayloads_dictAppend x.site (payloadOf x) d
    exact (h1.trans (List.Perm.append_left _ h2)).trans List.perm_middle

lemma flatPayloads_buildPlatforms (ms : List Listing) :
    (flatPayloads (buildPlatforms ms)).Perm (ms.map payloadOf) := by
  have h := flatPayloads_foldl ms []
  simpa [flatPayloads] using h

lemma matchGroupsAux_allPayloads (sc : List Char → List Char → Verdict) :
    ∀ (fuel : Nat) (l : List Listing), l.length ≤ fuel →
      (allPayloads (matchGroupsAux sc fuel l)).Perm (l.map payloadOf) := by
  intro fuel
  induction fuel with
  | zero =>
    intro l hl
    rw [show l = [] from List.eq_nil_of_length_eq_zero (by omega)]
    exact List.Perm.refl _
  | succ f ih =>
    intro l hl
    cases l with
    | nil => exact List.Perm.refl _
    | cons e rest =>
      show (flatPayloads (finalizeGroup sc e
          (rest.filter (fun x => acceptsVerdict (sc e.product x.product)))).2.platforms ++
        allPayloads (matchGroupsAux sc f
          (rest.filter (fun x => !acceptsVerdict (sc e.product x.product))))).Perm
        ((e :: rest).map payloadOf)
      rw [finalizeGroup_platforms]
      have h1 := flatPayloads_buildPlatforms
        (e :: rest.filter (fun x => acceptsVerdict (sc e.product x.product)))
      have h2 := ih (rest.filter (fun x => !acceptsVerdict (sc e.product x.product)))
        (le_trans (List.length_filter_le _ _) (by simpa using hl))
      have h3 := (List.filter_append_perm
        (fun x => acceptsVerdict (sc e.product x.product)) rest).map payloadOf
      refine (List.Perm.append h1 h2).trans ?_
      simp only [List.map_cons, List.cons_append]
      apply List.Perm.cons
      rw [← List.map_append]
      exact h3

lemma dictInsert_not_mem {β : Type} (k : List Char) (v : β) :
    ∀ m : List (List Char × β), k ∉ m.map Prod.fst →
      dictInsert k v m = m ++ [(k, v)] := by
  intro m
  induction m with
  | nil => intro; rfl
  | cons e rest ih =>
    intro hk
    obtain ⟨k0, v0⟩ := e
    simp only [List.map_cons, List.mem_cons, not_or] at hk
    show (if k0 = k then (k0, v) :: rest else (k0, v0) :: dictInsert k v rest) = _
    rw [if_neg (fun h => hk.1 h.symm), ih hk.2]
    rfl

lemma foldl_dictInsert_fresh {β : Type} :
    ∀ (gs : List (List Char × β)) (m : List (List Char × β)),
      (gs.map Prod.fst).Nodup →
      (∀ k, k ∈ gs.map Prod.fst → k ∉ m.map Prod.fst) →
      gs.foldl (fun m g => dictInsert g.1 g.2 m) m = m ++ gs := by
  intro gs
  induction gs with
  | nil => intro m _ _; simp
  | cons g gs ih =>
    intro m hnd hfresh
    simp only [List.map_cons, List.nodup_cons] at hnd
    rw [List.foldl_cons, dictInsert_not_mem g.1 g.2 m
      (hfresh g.1 (List.mem_map_of_mem Prod.fst (List.mem_cons_self g gs)))]
    rw [ih (m ++ [(g.1, g.2)]) hnd.2 ?_]
    · simp
    · intro k hk
      simp only [List.map_append, List.mem_append, List.map_cons, List.map_nil,
        List.mem_singleton, not_or]
      refine ⟨hfresh k (by simp [hk]), fun h => hnd.1 (by rw [← h]; exact hk)⟩

/-- With pairwise distinct finalized names, inserting the groups into
the result dict in order neither overwrites nor reorders anything. -/
lemma match_products_eq_matchGroups (sc : List Char → List Char → Verdict)
    (l : List Listing) (h : ((matchGroups sc l).map Prod.fst).Nodup) :
    match_products sc l = matchGroups sc l := by
  unfold match_products
  split
  · rename_i hl
    rw [show l = [] from by simpa using hl]
    rfl
  · rw [foldl_dictInsert_fresh (matchGroups sc l) [] h (fun k _ => by simp)]
    rfl

/-- C1 (counterexample): the claim includes the case of two distinct
groups finalizing to the same canonical name, but there the later group
overwrites the earlier in the result dict and its listings are lost.
Two listings titled `"a b"` do not merge (their keyword sets are empty,
so the pair scores `0.3`), producing two singleton groups both named
`"a b"`; the result mapping holds a single payload, not two. -/
theorem claim_C1_counterexample :
    payloadTotal (match_products calculate_similarity_rule_based
      sampleCollidingBatch) = 1 ∧ sampleCollidingBatch.length = 2 := by
  constructor
  · decide
  · rfl

/-- C1 (amended): provided the finalized canonical names of the groups
are pairwise distinct, the total payload count across the result
mapping equals the batch size and the multiset of emitted payloads is
exactly the multiset of input listings' payloads — no listing dropped
or duplicated, each in exactly one group.  When two distinct groups
finalize to the same name, the later overwrites the earlier
(`claim_C1_counterexample`), so the unconditional claim fails. -/
theorem claim_C1_amended (sc : List Char → List Char → Verdict) (l : List Listing)
    (h : ((matchGroups sc l).map Prod.fst).Nodup) :
    payloadTotal (match_products sc l) = l.length ∧
    (allPayloads (match_products sc l)).Perm (l.map payloadOf) := by
  rw [match_products_eq_matchGroups sc l h]
  exact ⟨matchGroupsAux_payloadTotal sc l.length l (le_refl _),
    matchGroupsAux_allPayloads sc l.length l (le_refl _)⟩

/-- C1 witness: a concrete two-listing batch with distinct group names
partitions exactly. -/
theorem claim_C1_witness :
    payloadTotal (match_products calculate_similarity_rule_based
      sampleDistinctBatch) = sampleDistinctBatch.length ∧
    (allPayloads (match_products calculate_similarity_rule_based
      sampleDistinctBatch)).Perm (sampleDistinctBatch.map payloadOf) :=
  claim_C1_amended calculate_similarity_rule_based sampleDistinctBatch (by decide)

/-! ## Empty and malformed batches -/

lemma except_bind_not_ok {ε α β : Type} (e : Except ε α) (g : α → Except ε β)
    (h : e.isOk = false) : (e >>= g).isOk = false := by
  cases e with
  | error msg => rfl
  | ok a => exact Bool.noConfusion h

lemma except_map_isOk {ε α β : Type} (f : α → β) (e : Except ε α) :
    (Except.map f e).isOk = e.isOk := by
  cases e <;> rfl

lemma mapM_not_ok_of_mem {ε α β : Type} (f : α → Except ε β) :
    ∀ (l : List α) (x : α), x ∈ l → (f x).isOk = false →
      (l.mapM f).isOk = false := by
  intro l
  induction l with
  | nil => intro x hx; exact absurd hx (List.not_mem_nil x)
  | cons y l ih =>
    intro x hx hbad
    rw [List.mapM_cons]
    rcases List.mem_cons.1 hx with rfl | hx'
    · exact except_bind_not_ok _ _ hbad
    · cases hfy : f y with
      | error msg => rfl
      | ok b =>
        exact except_bind_not_ok (l.mapM f) _ (ih x hx' hbad)

/-- C7 (counterexample): the claim asserts a malformed batch yields the
empty mapping without raising, but a nonempty batch with an entry
lacking the `product` key raises `KeyError` (the emptiness guard covers
only the empty/falsy batch). -/
theorem claim_C7_counterexample :
    match_products_checked calculate_similarity_rule_based sampleMalformedBatch =
      .error "KeyError: product".data := rfl

/-- C7 (amended): the empty batch yields the empty result mapping
without raising — that part of the claim holds — but a nonempty batch
containing an entry without the required `product` key raises
`KeyError` instead of returning an empty mapping. -/
theorem claim_C7_amended :
    (∀ sc : List Char → List Char → Verdict,
      match_products_checked sc [] = .ok []) ∧
    (∀ (sc : List Char → List Char → Verdict) (raw : List RawEntry) (e : RawEntry),
      e ∈ raw → e.product = none →
      (match_products_checked sc raw).isOk = false) := by
  refine ⟨fun sc => rfl, fun sc raw e he hprod => ?_⟩
  unfold match_products_checked
  rw [if_neg (by simpa [List.isEmpty_iff] using List.ne_nil_of_mem he)]
  rw [except_map_isOk]
  apply mapM_not_ok_of_mem listingOfRaw raw e he
  rw [show listingOfRaw e = .error "KeyError: product".data from by
    unfold listingOfRaw
    rw [hprod]
    rcases e.site with _ | s <;> rcases e.price with _ | pr <;> rfl]
  rfl

/-- C7 witness: a concrete malformed batch is answered with an error
rather than an empty mapping. -/
theorem claim_C7_witness :
    (match_products_checked calculate_similarity_rule_based
      sampleMalformedBatch).isOk = false :=
  claim_C7_amended.2 calculate_similarity_rule_based sampleMalformedBatch
    sampleMalformedEntry (by decide) rfl

/-! ## Aggregation: numeric safety and strict positivity -/

lemma filterMap_mid_none {α β : Type} (f : α → Option β) (pre post : List α) (x : α)
    (hx : f x = none) :
    (pre ++ x :: post).filterMap f = (pre ++ post).filterMap f := by
  rw [List.filterMap_append, List.filterMap_append, List.filterMap_cons, hx]

lemma filterMap_mid_congr {α β : Type} (f : α → Option β) (pre post : List α) (x y : α)
    (h : f x = f y) :
    (pre ++ x :: post).filterMap f = (pre ++ y :: post).filterMap f := by
  rw [List.filterMap_append, List.filterMap_append, List.filterMap_cons,
    List.filterMap_cons, h]

lemma bestPlatform_mem :
    ∀ (pp : List (List Char × ℚ)) (acc : Option (List Char × ℚ)) (kv : List Char × ℚ),
      pp.foldl (fun acc kv =>
        match acc with
        | none => some kv
        | some best => if best.2 < kv.2 then some kv else acc) acc = some kv →
      kv ∈ pp ∨ acc = some kv := by
  intro pp
  induction pp with
  | nil => intro acc kv h; exact Or.inr h
  | cons e pp ih =>
    intro acc kv h
    rw [List.foldl_cons] at h
    rcases ih _ kv h with h' | h'
    · exact Or.inl (List.mem_cons_of_mem _ h')
    · cases acc with
      | none =>
        left
        have : e = kv := by simpa using h'
        rw [this]
        exact List.mem_cons_self _ _
      | some best =>
        have h'' : (if best.2 < e.2 then some e else some best) = some kv := h'
        by_cases hlt : best.2 < e.2
        · left
          rw [if_pos hlt] at h''
          have : e = kv := by simpa using h''
          rw [this]
          exact List.mem_cons_self _ _
        · rw [if_neg hlt] at h''
          exact Or.inr h''

lemma dictInsert_keys {β : Type} (k : List Char) (v : β) :
    ∀ (m : List (List Char × β)) (x : List Char),
      x ∈ (dictInsert k v m).map Prod.fst → x = k ∨ x ∈ m.map Prod.fst := by
  intro m
  induction m with
  | nil => intro x hx; exact Or.inl (List.mem_singleton.1 hx)
  | cons e rest ih =>
    intro x hx
    obtain ⟨k0, v0⟩ := e
    by_cases hk : k0 = k
    · rw [show dictInsert k v ((k0, v0) :: rest) = (k0, v) :: rest from by
        unfold dictInsert; rw [if_pos hk]] at hx
      rcases List.mem_cons.1 hx with h | h
      · exact Or.inl (h.trans hk)
      · exact Or.inr (List.mem_cons_of_mem _ h)
    · rw [show dictInsert k v ((k0, v0) :: rest) = (k0, v0) :: dictInsert k v rest from by
        rw [dictInsert, if_neg hk]] at hx
      rcases List.mem_cons.1 hx with h | h
      · exact Or.inr (by rw [h]; exact List.mem_cons_self _ _)
      · rcases ih x h with h2 | h2
        · exact Or.inl h2
        · exact Or.inr (List.mem_cons_of_mem _ h2)

lemma foldl_dictInsert_keys {β : Type} :
    ∀ (xs : List (List Char × β)) (m : List (List Char × β)) (x : List Char),
      x ∈ ((xs.foldl (fun d kv => dictInsert kv.1 kv.2 d) m).map Prod.fst) →
      x ∈ xs.map Prod.fst ∨ x ∈ m.map Prod.fst := by
  intro xs
  induction xs with
  | nil => intro m x hx; exact Or.inr hx
  | cons kv xs ih =>
    intro m x hx
    rw [List.foldl_cons] at hx
    rcases ih _ x hx with h | h
    · exact Or.inl (List.mem_cons_of_mem _ h)
    · rcases dictInsert_keys kv.1 kv.2 m x h with h' | h'
      · left
        rw [h']
        exact List.mem_map_of_mem Prod.fst (List.mem_cons_self _ _)
      · exact Or.inr h'

lemma groupPrices_eq_contrib (pd : List (List Char × List Payload)) :
    groupPrices pd = pd.filterMap priceContrib := rfl

lemma groupVolumes_eq_contrib (pd : List (List Char × List Payload)) :
    groupVolumes pd = pd.filterMap volumeContrib := rfl

lemma platform_prices_eq_contrib (pd : List (List Char × List Payload)) :
    platform_prices pd =
      (pd.filterMap platPriceContrib).foldl (fun d kv => dictInsert kv.1 kv.2 d) [] := rfl

lemma mem_platform_prices_keys (pd : List (List Char × List Payload))
    (kv : List Char × ℚ) (h : kv ∈ platform_prices pd) : kv.1 ∈ pd.map Prod.fst := by
  rw [platform_prices_eq_contrib] at h
  have hk := List.mem_map_of_mem Prod.fst h
  rcases foldl_dictInsert_keys _ [] kv.1 hk with h' | h'
  · obtain ⟨e, he, heq⟩ := List.mem_map.1 h'
    obtain ⟨x, hx, hxe⟩ := List.mem_filterMap.1 he
    obtain ⟨k0, dl⟩ := x
    cases dl with
    | nil => simp [platPriceContrib] at hxe
    | cons d0 dl =>
      have : e.1 = k0 := by
        simp only [platPriceContrib, List.head?_cons, Option.some_bind] at hxe
        split at hxe
        · cases hxe
          rfl
        · cases hxe
      rw [← heq, this]
      exact List.mem_map_of_mem Prod.fst hx
  · simp at h'

lemma metrics_price_fields (A B : List (List Char × List Payload))
    (hP : groupPrices A = groupPrices B)
    (hPP : platform_prices A = platform_prices B) :
    (calculate_advanced_metrics A).price_stats =
      (calculate_advanced_metrics B).price_stats ∧
    (calculate_advanced_metrics A).best_opportunities =
      (calculate_advanced_metrics B).best_opportunities := by
  unfold calculate_advanced_metrics
  constructor
  · dsimp only
    rw [hP]
  · dsimp only
    rw [hP, hPP]

/-- C8: a platform whose first payload has a non-numeric price (for
example the string `"N/A"`) contributes nothing to the price list and
the platform-price dict, so the price statistics and the best
opportunities are computed exactly as if that platform were absent, and
the platform cannot be named as the best-price platform.  (No exception
is modelled because the source catches the `ValueError`/`TypeError` of
the coercion and substitutes `0.0`.) -/
theorem claim_C8 (pre post : List (List Char × List Payload)) (p : List Char)
    (d : Payload) (more : List Payload)
    (hbad : tryFloat d.price = none)
    (hp : p ∉ (pre ++ post).map Prod.fst) :
    (calculate_advanced_metrics (pre ++ (p, d :: more) :: post)).price_stats =
      (calculate_advanced_metrics (pre ++ post)).price_stats ∧
    (calculate_advanced_metrics (pre ++ (p, d :: more) :: post)).best_opportunities =
      (calculate_advanced_metrics (pre ++ post)).best_opportunities ∧
    ∀ b, (calculate_advanced_metrics
        (pre ++ (p, d :: more) :: post)).best_opportunities = some b →
      b.highest_probability_platform ≠ p := by
  have hzero : coerceNum d.price = 0 := by
    unfold coerceNum
    rw [hbad]
    rfl
  have hcontrP : priceContrib (p, d :: more) = none := by
    simp [priceContrib, hzero]
  have hcontrPP : platPriceContrib (p, d :: more) = none := by
    simp [platPriceContrib, hzero]
  have hP : groupPrices (pre ++ (p, d :: more) :: post) = groupPrices (pre ++ post) := by
    rw [groupPrices_eq_contrib, groupPrices_eq_contrib]
    exact filterMap_mid_none _ _ _ _ hcontrP
  have hPP : platform_prices (pre ++ (p, d :: more) :: post) =
      platform_prices (pre ++ post) := by
    rw [platform_prices_eq_contrib, platform_prices_eq_contrib]
    rw [filterMap_mid_none _ _ _ _ hcontrPP]
  obtain ⟨h1, h2⟩ := metrics_price_fields _ _ hP hPP
  refine ⟨h1, h2, fun b hb => ?_⟩
  rw [h2] at hb
  have hbest : bestPlatform (platform_prices (pre ++ post)) =
      some (b.highest_probability_platform, b.highest_probability_price) := by
    unfold calculate_advanced_metrics at hb
    dsimp only at hb
    split at hb
    · cases hb
    · split at hb
      · cases hb
      · rename_i kv hkv
        cases hb
        exact hkv
  have hmem := bestPlatform_mem (platform_prices (pre ++ post)) none _ hbest
  rcases hmem with hmem | hmem
  · intro hcontra
    apply hp
    have := mem_platform_prices_keys (pre ++ post) _ hmem
    rw [← hcontra]
    exact this
  · cases hmem

/-- C8 witness: a group with a numeric Polymarket price and a Kalshi
price of `"N/A"`: the statistics equal those of the Polymarket-only
group and Kalshi is not the best platform. -/
theorem claim_C8_witness :
    (calculate_advanced_metrics [("Polymarket".data, [samplePayloadGood]),
        ("Kalshi".data, [samplePayloadNA])]).price_stats =
      (calculate_advanced_metrics [("Polymarket".data, [samplePayloadGood])]).price_stats ∧
    (calculate_advanced_metrics [("Polymarket".data, [samplePayloadGood]),
        ("Kalshi".data, [samplePayloadNA])]).best_opportunities =
      (calculate_advanced_metrics
        [("Polymarket".data, [samplePayloadGood])]).best_opportunities ∧
    ∀ b, (calculate_advanced_metrics [("Polymarket".data, [samplePayloadGood]),
        ("Kalshi".data, [samplePayloadNA])]).best_opportunities = some b →
      b.highest_probability_platform ≠ "Kalshi".data :=
  claim_C8 [("Polymarket".data, [samplePayloadGood])] [] "Kalshi".data
    samplePayloadNA [] (by decide) (by decide)

/-- C10: the aggregation loop admits a price into the statistics and
the best-price candidates, and a volume into the volume statistics,
only when its coercion is strictly positive; consequently a payload
carrying price `0.0` (or volume `0`) yields metrics identical to those
with the value replaced by the invalid string `"N/A"` — exactly as if
it were missing. -/
theorem claim_C10 (pre post : List (List Char × List Payload)) (p : List Char)
    (d : Payload) (more : List Payload) :
    (coerceNum d.price = 0 →
      calculate_advanced_metrics (pre ++ (p, d :: more) :: post) =
        calculate_advanced_metrics
          (pre ++ (p, { d with price := PVal.str "N/A".data } :: more) :: post)) ∧
    (coerceNum d.volume = 0 →
      calculate_advanced_metrics (pre ++ (p, d :: more) :: post) =
        calculate_advanced_metrics
          (pre ++ (p, { d with volume := PVal.str "N/A".data } :: more) :: post)) ∧
    (∀ (pd : List (List Char × List Payload)) (q : ℚ), q ∈ groupPrices pd → 0 < q) ∧
    (∀ (pd : List (List Char × List Payload)) (v : ℚ), v ∈ groupVolumes pd → 0 < v) := by
  have hNA : coerceNum (PVal.str "N/A".data) = 0 := by decide
  refine ⟨?_, ?_, ?_, ?_⟩
  · intro h0
    have hP : groupPrices (pre ++ (p, d :: more) :: post) =
        groupPrices (pre ++ (p, { d with price := PVal.str "N/A".data } :: more) :: post) := by
      rw [groupPrices_eq_contrib, groupPrices_eq_contrib]
      exact filterMap_mid_congr priceContrib pre post (p, d :: more)
        (p, { d with price := PVal.str "N/A".data } :: more) (by simp [priceContrib, h0, hNA])
    have hV : groupVolumes (pre ++ (p, d :: more) :: post) =
        groupVolumes (pre ++ (p, { d with price := PVal.str "N/A".data } :: more) :: post) := by
      rw [groupVolumes_eq_contrib, groupVolumes_eq_contrib]
      exact filterMap_mid_congr volumeContrib pre post (p, d :: more)
        (p, { d with price := PVal.str "N/A".data } :: more) rfl
    have hPP : platform_prices (pre ++ (p, d :: more) :: post) =
        platform_prices (pre ++ (p, { d with price := PVal.str "N/A".data } :: more) :: post) := by
      rw [platform_prices_eq_contrib, platform_prices_eq_contrib]
      rw [filterMap_mid_congr platPriceContrib pre post (p, d :: more)
        (p, { d with price := PVal.str "N/A".data } :: more) (by simp [platPriceContrib, h0, hNA])]
    have hlen : (pre ++ (p, d :: more) :: post).length =
        (pre ++ (p, { d with price := PVal.str "N/A".data } :: more) :: post).length := by
      simp
    have hfst : (pre ++ (p, d :: more) :: post).map Prod.fst =
        (pre ++ (p, { d with price := PVal.str "N/A".data } :: more) :: post).map Prod.fst := by
      simp
    unfold calculate_advanced_metrics
    rw [hP, hV, hPP, hlen, hfst]
  · intro h0
    have hP : groupPrices (pre ++ (p, d :: more) :: post) =
        groupPrices (pre ++ (p, { d with volume := PVal.str "N/A".data } :: more) :: post) := by
      rw [groupPrices_eq_contrib, groupPrices_eq_contrib]
      exact filterMap_mid_congr priceContrib pre post (p, d :: more)
        (p, { d with volume := PVal.str "N/A".data } :: more) rfl
    have hV : groupVolumes (pre ++ (p, d :: more) :: post) =
        groupVolumes (pre ++ (p, { d with volume := PVal.str "N/A".data } :: more) :: post) := by
      rw [groupVolumes_eq_contrib, groupVolumes_eq_contrib]
      exact filterMap_mid_congr volumeContrib pre post (p, d :: more)
        (p, { d with volume := PVal.str "N/A".data } :: more) (by simp [volumeContrib, h0, hNA])
    have hPP : platform_prices (pre ++ (p, d :: more) :: post) =
        platform_prices (pre ++ (p, { d with volume := PVal.str "N/A".data } :: more) :: post) := by
      rw [platform_prices_eq_contrib, platform_prices_eq_contrib]
      rw [filterMap_mid_congr platPriceContrib pre post (p, d :: more)
        (p, { d with volume := PVal.str "N/A".data } :: more) rfl]
    have hlen : (pre ++ (p, d :: more) :: post).length =
        (pre ++ (p, { d with volume := PVal.str "N/A".data } :: more) :: post).length := by
      simp
    have hfst : (pre ++ (p, d :: more) :: post).map Prod.fst =
        (pre ++ (p, { d with volume := PVal.str "N/A".data } :: more) :: post).map Prod.fst := by
      simp
    unfold calculate_advanced_metrics
    rw [hP, hV, hPP, hlen, hfst]
  · intro pd q hq
    rw [groupPrices_eq_contrib] at hq
    obtain ⟨e, _, heq⟩ := List.mem_filterMap.1 hq
    obtain ⟨k0, dl⟩ := e
    cases dl with
    | nil => simp [priceContrib] at heq
    | cons d0 dl =>
      simp only [priceContrib, List.head?_cons, Option.some_bind] at heq
      split at heq
      · rename_i hpos
        cases heq
        exact hpos
      · cases heq
  · intro pd v hv
    rw [groupVolumes_eq_contrib] at hv
    obtain ⟨e, _, heq⟩ := List.mem_filterMap.1 hv
    obtain ⟨k0, dl⟩ := e
    cases dl with
    | nil => simp [volumeContrib] at heq
    | cons d0 dl =>
      simp only [volumeContrib, List.head?_cons, Option.some_bind] at heq
      split at heq
      · rename_i hpos
        cases heq
        exact hpos
      · cases heq

/-- C10 witness: a Kalshi payload with price `0.0` gives metrics equal
to the same payload with price `"N/A"`, and a concrete positive price
is admitted into the price list. -/
theorem claim_C10_witness :
    calculate_advanced_metrics ([("Polymarket".data, [samplePayloadGood])] ++
        ("Kalshi".data, samplePayloadZero :: []) :: []) =
      calculate_advanced_metrics ([("Polymarket".data, [samplePayloadGood])] ++
        ("Kalshi".data, { samplePayloadZero with price := PVal.str "N/A".data } :: []) :: []) ∧
    (0 : ℚ) < 6/10 :=
  ⟨(claim_C10 [("Polymarket".data, [samplePayloadGood])] [] "Kalshi".data
      samplePayloadZero []).1 (by decide),
   (claim_C10 [("Polymarket".data, [samplePayloadGood])] [] "Kalshi".data
      samplePayloadZero []).2.2.1 [("Polymarket".data, [samplePayloadGood])]
      (6/10) (by decide)⟩

/-! ## Normalization idempotence (C3) -/

lemma map_eq_self {α : Type} (f : α → α) :
    ∀ l : List α, (∀ c ∈ l, f c = c) → l.map f = l
  | [], _ => rfl
  | c :: l, h => by
    simp only [List.map_cons, h c (List.mem_cons_self c l),
      map_eq_self f l (fun d hd => h d (List.mem_cons_of_mem c hd))]

lemma lowerChar_fix (c : Char) (h : ¬ (65 ≤ c.toNat ∧ c.toNat ≤ 90)) :
    lowerChar c = c := by
  rw [lowerChar, if_neg]; simpa using h

lemma lowerChar_idem (c : Char) : lowerChar (lowerChar c) = lowerChar c := by
  by_cases hb : 65 ≤ c.toNat ∧ c.toNat ≤ 90
  · have hv : Nat.isValidChar (c.toNat + 32) := Or.inl (by omega)
    have hc : lowerChar c = Char.ofNat (c.toNat + 32) := by
      rw [lowerChar, if_pos]; simpa using hb
    have ht : (lowerChar c).toNat = c.toNat + 32 := by
      rw [hc, Char.ofNat, dif_pos hv]; rfl
    apply lowerChar_fix; rw [ht]; omega
  · rw [lowerChar_fix c hb]; exact lowerChar_fix c hb

lemma mem_pyStrip {c : Char} {s : List Char} (h : c ∈ pyStrip s) : c ∈ s := by
  unfold pyStrip at h
  rw [List.mem_reverse] at h
  have h2 := (List.dropWhile_suffix (l := (s.dropWhile isPySpace).reverse)
    isPySpace).subset h
  rw [List.mem_reverse] at h2
  exact (List.dropWhile_suffix (l := s) isPySpace).subset h2

lemma mem_subWordAux {key rep : List Char} :
    ∀ (fuel : Nat) (prev : Option Char) (s : List Char) (c : Char),
      c ∈ subWordAux key rep fuel prev s → c ∈ s ∨ c ∈ rep
  | 0, _, s, c, h => Or.inl h
  | _ + 1, _, [], _, h => absurd h (List.not_mem_nil _)
  | fuel + 1, prev, c0 :: s, c, h => by
    rw [subWordAux] at h
    split at h
    · rcases List.mem_append.mp h with hr | hrec
      · exact Or.inr hr
      · rcases mem_subWordAux fuel _ _ c hrec with hs | hr
        · exact Or.inl (List.drop_subset _ _ hs)
        · exact Or.inr hr
    · rcases List.mem_cons.mp h with hc | hrec
      · exact Or.inl (hc ▸ List.mem_cons_self c0 s)
      · rcases mem_subWordAux fuel _ _ c hrec with hs | hr
        · exact Or.inl (List.mem_cons_of_mem c0 hs)
        · exact Or.inr hr

lemma mem_subWord {key rep s : List Char} {c : Char} (h : c ∈ subWord key rep s) :
    c ∈ s ∨ c ∈ rep :=
  mem_subWordAux _ _ _ c h

lemma mem_foldl_subWord (rs : List (List Char × List Char)) :
    ∀ (s : List Char) (c : Char),
      c ∈ rs.foldl (fun acc kv => subWord kv.1 kv.2 acc) s →
      c ∈ s ∨ ∃ kv ∈ rs, c ∈ kv.2 := by
  induction rs with
  | nil => exact fun s c h => Or.inl h
  | cons kv rs ih =>
    intro s c h
    rcases ih (subWord kv.1 kv.2 s) c h with hs | ⟨kv2, hkv2, hc⟩
    · rcases mem_subWord hs with hs2 | hr
      · exact Or.inl hs2
      · exact Or.inr ⟨kv, List.mem_cons_self kv rs, hr⟩
    · exact Or.inr ⟨kv2, List.mem_cons_of_mem kv hkv2, hc⟩

lemma replacements_values_good :
    ∀ kv ∈ replacements, ∀ c ∈ kv.2, goodChar c := by decide

lemma mem_applyReplacements {s : List Char} {c : Char}
    (h : c ∈ applyReplacements s) : c ∈ s ∨ goodChar c := by
  rcases mem_foldl_subWord replacements s c h with hs | ⟨kv, hkv, hc⟩
  · exact Or.inl hs
  · exact Or.inr (replacements_values_good kv hkv c hc)

lemma pySplitRaw_ne_nil : ∀ s : List Char, pySplitRaw s ≠ [] := by
  intro s
  induction s with
  | nil => exact fun h => List.noConfusion h
  | cons c s ih =>
    show splitStep c (pySplitRaw s) ≠ []
    unfold splitStep
    split
    · exact fun h => List.noConfusion h
    · cases hr : pySplitRaw s with
      | nil => exact absurd hr ih
      | cons w ws => exact fun h => List.noConfusion h

lemma pySplitRaw_chars :
    ∀ (s : List Char) (w : List Char), w ∈ pySplitRaw s →
      ∀ c ∈ w, isPySpace c = false ∧ c ∈ s := by
  intro s
  induction s with
  | nil =>
    intro w hw c hc
    have : w = [] := by simpa [pySplitRaw] using hw
    exact absurd (this ▸ hc) (List.not_mem_nil c)
  | cons c0 s ih =>
    intro w hw c hc
    have hw2 : w ∈ splitStep c0 (pySplitRaw s) := hw
    unfold splitStep at hw2
    split at hw2
    · rcases List.mem_cons.mp hw2 with h | h
      · exact absurd (h ▸ hc) (List.not_mem_nil c)
      · obtain ⟨h1, h2⟩ := ih w h c hc
        exact ⟨h1, List.mem_cons_of_mem c0 h2⟩
    · rename_i hns
      cases hr : pySplitRaw s with
      | nil => exact absurd hr (pySplitRaw_ne_nil s)
      | cons v vs =>
        rw [hr] at hw2
        rcases List.mem_cons.mp hw2 with h | h
        · subst h
          rcases List.mem_cons.mp hc with h | h
          · subst h
            exact ⟨by simpa using hns, List.mem_cons_self c s⟩
          · obtain ⟨h1, h2⟩ := ih v (hr ▸ List.mem_cons_self v vs) c h
            exact ⟨h1, List.mem_cons_of_mem c0 h2⟩
        · obtain ⟨h1, h2⟩ := ih w (hr ▸ List.mem_cons_of_mem v h) c hc
          exact ⟨h1, List.mem_cons_of_mem c0 h2⟩

lemma pySplit_goodToks (s : List Char) : goodToks (pySplit s) := by
  intro w hw
  rw [pySplit, List.mem_filter] at hw
  refine ⟨by simpa using hw.2, fun c hc => (pySplitRaw_chars s w hw.1 c hc).1⟩

lemma mem_pySplit {s w : List Char} {c : Char} (hw : w ∈ pySplit s)
    (hc : c ∈ w) : c ∈ s := by
  rw [pySplit, List.mem_filter] at hw
  exact (pySplitRaw_chars s w hw.1 c hc).2

lemma mem_joinSp :
    ∀ (ws : List (List Char)) (c : Char), c ∈ joinSp ws →
      c = ' ' ∨ ∃ w ∈ ws, c ∈ w
  | [], c, h => absurd h (List.not_mem_nil c)
  | [w], c, h => Or.inr ⟨w, List.mem_cons_self w [], h⟩
  | w :: v :: ws, c, h => by
    rw [joinSp] at h
    rcases List.mem_append.mp h with hw | hr
    · exact Or.inr ⟨w, List.mem_cons_self w _, hw⟩
    · rcases List.mem_cons.mp hr with hsp | hrest
      · exact Or.inl hsp
      · rcases mem_joinSp (v :: ws) c hrest with hsp | ⟨u, hu, hcu⟩
        · exact Or.inl hsp
        · exact Or.inr ⟨u, List.mem_cons_of_mem w hu, hcu⟩

lemma foldr_splitStep_nospace :
    ∀ (w : List Char), (∀ c ∈ w, isPySpace c = false) →
      ∀ (v : List Char) (vs : List (List Char)),
        w.foldr splitStep (v :: vs) = (w ++ v) :: vs
  | [], _, v, vs => rfl
  | c :: w, h, v, vs => by
    rw [List.foldr_cons,
      foldr_splitStep_nospace w (fun d hd => h d (List.mem_cons_of_mem c hd)) v vs]
    unfold splitStep
    rw [if_neg (by simp [h c (List.mem_cons_self c w)])]
    rfl

lemma pySplit_joinSp :
    ∀ ws : List (List Char), goodToks ws → pySplit (joinSp ws) = ws
  | [], _ => rfl
  | [w], h => by
    have hw := h w (List.mem_cons_self w [])
    show ((joinSp [w]).foldr splitStep [[]]).filter (fun u => !u.isEmpty) = [w]
    rw [show joinSp [w] = w from rfl,
      foldr_splitStep_nospace w hw.2 [] []]
    have hne : (!w.isEmpty) = true := by simpa using hw.1
    simp [List.filter, hne]
  | w :: v :: ws, h => by
    have hw := h w (List.mem_cons_self w _)
    have hrest : goodToks (v :: ws) :=
      fun u hu => h u (List.mem_cons_of_mem w hu)
    have ih := pySplit_joinSp (v :: ws) hrest
    show ((joinSp (w :: v :: ws)).foldr splitStep [[]]).filter
      (fun u => !u.isEmpty) = w :: v :: ws
    rw [show joinSp (w :: v :: ws) = w ++ ' ' :: joinSp (v :: ws) from rfl,
      List.foldr_append, List.foldr_cons]
    rw [show splitStep ' ' (List.foldr splitStep [[]] (joinSp (v :: ws)))
        = [] :: List.foldr splitStep [[]] (joinSp (v :: ws)) from rfl]
    rw [foldr_splitStep_nospace w hw.2 [] _]
    rw [List.filter_cons]
    simp only [List.append_nil]
    rw [if_pos (by simpa using hw.1)]
    exact congrArg _ ih

lemma joinSp_head (c : Char) (t : List Char) (ws : List (List Char)) :
    ∃ r, joinSp ((c :: t) :: ws) = c :: r := by
  cases ws with
  | nil => exact ⟨t, rfl⟩
  | cons v vs => exact ⟨t ++ ' ' :: joinSp (v :: vs), rfl⟩

lemma joinSp_concat :
    ∀ ws : List (List Char), ws ≠ [] → goodToks ws →
      ∃ t d, joinSp ws = t ++ [d] ∧ isPySpace d = false
  | [], h, _ => absurd rfl h
  | [w], _, hg => by
    have hw := hg w (List.mem_cons_self w [])
    rcases List.eq_nil_or_concat w with hnil | ⟨t, d, htd⟩
    · exact absurd hnil hw.1
    · rw [List.concat_eq_append] at htd
      exact ⟨t, d, by rw [show joinSp [w] = w from rfl, htd],
        hw.2 d (htd ▸ (by simp : d ∈ t ++ [d]))⟩
  | w :: v :: ws, _, hg => by
    obtain ⟨t, d, h1, h2⟩ := joinSp_concat (v :: ws) (List.cons_ne_nil v ws)
      (fun u hu => hg u (List.mem_cons_of_mem w hu))
    refine ⟨w ++ ' ' :: t, d, ?_, h2⟩
    rw [show joinSp (w :: v :: ws) = w ++ ' ' :: joinSp (v :: ws) from rfl, h1]
    simp

lemma pyStrip_joinSp (ws : List (List Char)) (hg : goodToks ws) :
    pyStrip (joinSp ws) = joinSp ws := by
  cases ws with
  | nil => rfl
  | cons w vs =>
    have hw := hg w (List.mem_cons_self w vs)
    obtain ⟨c, t, hct⟩ : ∃ c t, w = c :: t := by
      cases w with
      | nil => exact absurd rfl hw.1
      | cons c t => exact ⟨c, t, rfl⟩
    subst hct
    obtain ⟨r, hr⟩ := joinSp_head c t vs
    obtain ⟨u, d, hud, hd⟩ := joinSp_concat ((c :: t) :: vs)
      (List.cons_ne_nil _ vs) hg
    have hc : isPySpace c = false := hw.2 c (List.mem_cons_self c t)
    unfold pyStrip
    rw [hr, List.dropWhile_cons, if_neg (by simp [hc]), ← hr, hud]
    rw [show (u ++ [d]).reverse = d :: u.reverse by simp]
    rw [List.dropWhile_cons, if_neg (by simp [hd])]
    simp

lemma normalize_good (x : List Char) (c : Char)
    (hc : c ∈ normalize_product_name x) : goodChar c := by
  by_cases hx : x = []
  · rw [hx] at hc
    exact absurd hc (List.not_mem_nil c)
  · rw [normalize_product_name, if_neg hx] at hc
    rcases mem_joinSp _ c hc with hsp | ⟨w, hw, hcw⟩
    · subst hsp; decide
    · have hz := mem_pySplit hw hcw
      rcases mem_applyReplacements hz with hn3 | hgood
      · rw [List.mem_map] at hn3
        obtain ⟨c0, hc0, hpc⟩ := hn3
        have hc0m : c0 ∈ x.map lowerChar := mem_pyStrip hc0
        rw [List.mem_map] at hc0m
        obtain ⟨c1, _, hl⟩ := hc0m
        subst hpc
        by_cases hk : keepChar c0 = true
        · rw [if_pos hk]
          exact ⟨hk, hl ▸ lowerChar_idem c1⟩
        · rw [if_neg hk]; decide
      · exact hgood

/-- C3 (counterexample): the claim asserts idempotence of the Text
Normalizer on every input.  It fails: the synonym pass rewrites the
whole word `trump` to `donald trump` on every application, so
normalizing `"trump"` gives `"donald trump"` and normalizing again
gives `"donald donald trump"`. -/
theorem claim_C3_counterexample :
    normalize_product_name (normalize_product_name "trump".data) ≠
      normalize_product_name "trump".data ∧
    normalize_product_name "trump".data = "donald trump".data ∧
    normalize_product_name (normalize_product_name "trump".data) =
      "donald donald trump".data :=
  ⟨by decide, by decide, by decide⟩

/-- C3 (amended): the normalizer is idempotent exactly on the inputs
whose normal form is a fixed point of the synonym pass.  For every
input `x` with `applyReplacements (normalize x) = normalize x`, a second
normalization changes nothing: every character of the normal form is
already lowercase and kept by the punctuation filter, the normal form
carries no leading, trailing or doubled whitespace, so the lowering,
stripping, punctuation and whitespace-collapse stages all fix it, and
the synonym stage fixes it by hypothesis. -/
theorem claim_C3_amended (x : List Char)
    (h : applyReplacements (normalize_product_name x) = normalize_product_name x) :
    normalize_product_name (normalize_product_name x) = normalize_product_name x := by
  by_cases hy : normalize_product_name x = []
  · rw [hy]; rfl
  · set y := normalize_product_name x with hydef
    have hgood : ∀ c ∈ y, goodChar c := fun c hc => normalize_good x c hc
    have hx : x ≠ [] := by
      intro h0
      exact hy (by rw [hydef, h0]; rfl)
    have hstruct : y = collapseWS (applyReplacements
        ((pyStrip (x.map lowerChar)).map (fun c => if keepChar c then c else ' '))) := by
      rw [hydef, normalize_product_name, if_neg hx]
    have hA : y.map lowerChar = y :=
      map_eq_self _ y (fun c hc => (hgood c hc).2)
    have hB : pyStrip y = y := by
      rw [hstruct, collapseWS]
      exact pyStrip_joinSp _ (pySplit_goodToks _)
    have hC : y.map (fun c => if keepChar c then c else ' ') = y :=
      map_eq_self _ y (fun c hc => by rw [if_pos (hgood c hc).1])
    have hE : collapseWS y = y := by
      rw [hstruct, collapseWS, collapseWS]
      rw [pySplit_joinSp _ (pySplit_goodToks _)]
    show normalize_product_name y = y
    rw [normalize_product_name, if_neg hy]
    show collapseWS (applyReplacements
      ((pyStrip (y.map lowerChar)).map (fun c => if keepChar c then c else ' '))) = y
    rw [hA, hB, hC, h, hE]

/-- C3 (witness): the title `"bitcoin over 100k"` normalizes to itself
under the synonym pass, so the amended idempotence theorem applies to
it concretely. -/
theorem claim_C3_witness :
    applyReplacements (normalize_product_name "bitcoin over 100k".data) =
        normalize_product_name "bitcoin over 100k".data ∧
      normalize_product_name (normalize_product_name "bitcoin over 100k".data) =
        normalize_product_name "bitcoin over 100k".data :=
  ⟨by decide, claim_C3_amended "bitcoin over 100k".data (by decide)⟩

end CrowdWisdom
